import Mathlib

/-!
Verification of the rename-resolution engine of the `refinery` repository:
the path authority (`refinery/tag_index/tag_path_handler.py`), the dependency
walker (`refinery/heuristic_deprotection/functions.py`) and the path-length
compactor (`TagPathHandler.shorten_paths`).

The Python code is shallowly embedded: the handler's mutable state becomes the
structure `HState`; Python dicts (which preserve insertion order) become
association lists with in-place key update; Python `float` priorities, used
only with comparisons, `min`/`max`, and the `float("inf")` sentinels, become
the three-cased `Prio`; a raised exception becomes the `Except.error` arm of
the operation's result. Tag paths are ASCII strings, so Python's `str.lower`
is embedded as the ASCII lowercasing map.  All string utilities are defined
by structural recursion over `String.data` so that every definition is
executable by the kernel.
-/

namespace Refinery

instance {ε α : Type} [DecidableEq ε] [DecidableEq α] : DecidableEq (Except ε α) := fun a b =>
  match a, b with
  | .error e, .error f => decidable_of_iff (e = f) (by simp)
  | .ok x, .ok y => decidable_of_iff (x = y) (by simp)
  | .error _, .ok _ => isFalse (by simp)
  | .ok _, .error _ => isFalse (by simp)

/-- ASCII lowercase of one character (model of `str.lower` on tag-path text). -/
def lowerChar (c : Char) : Char :=
  if 65 ≤ c.toNat ∧ c.toNat ≤ 90 then Char.ofNat (c.toNat + 32) else c

/-- Lowercase a string characterwise. -/
def lowerS (s : String) : String := ⟨s.data.map lowerChar⟩

/-- Decimal digit test (`DIGIT_CHARS` of `tag_path_handler.py`). -/
def isDigitC (c : Char) : Bool := 48 ≤ c.toNat && c.toNat ≤ 57

/-- Digit-or-underscore test (`DIGIT_US_CHARS` of `tag_path_handler.py`). -/
def isDigitUSC (c : Char) : Bool := isDigitC c || c = '_'

/-- Whitespace test backing Python's `str.strip()`. -/
def isSpaceC (c : Char) : Bool := c = ' ' || c = '\t' || c = '\n' || c = '\r'

/-- Strip characters satisfying `p` from both ends (Python `str.strip(chars)`). -/
def stripCharsL (p : Char → Bool) (l : List Char) : List Char :=
  ((l.dropWhile p).reverse.dropWhile p).reverse

/-- Python `str.strip()` on a string. -/
def trimS (s : String) : String := ⟨stripCharsL isSpaceC s.data⟩

/-- Split a character list at every occurrence of `sep` (Python `str.split(sep)`:
the empty list yields one empty field). -/
def splitCh (sep : Char) : List Char → List (List Char)
  | [] => [[]]
  | c :: t =>
    let r := splitCh sep t
    if c = sep then [] :: r
    else
      match r with
      | h :: t2 => (c :: h) :: t2
      | [] => [[c]]

/-- Join character lists with a separator character. -/
def joinCh (sep : Char) : List (List Char) → List Char
  | [] => []
  | [x] => x
  | x :: y :: t => x ++ sep :: joinCh sep (y :: t)

/-- The components of a backslash-delimited path
(model of `PureWindowsPath(s).parts`, which drops empty components). -/
def pwParts (s : String) : List String :=
  ((splitCh '\\' s.data).filter (fun l => l ≠ [])).map (fun l => ⟨l⟩)

/-- Join components with backslashes (model of `str(PureWindowsPath(*ps))` for
nonempty `ps`). -/
def pwJoin (ps : List String) : String := ⟨joinCh '\\' (ps.map String.data)⟩

/-- `str(PureWindowsPath(*ps))`: an empty argument list renders as `"."`. -/
def pwJoinDot (ps : List String) : String := if ps = [] then "." else pwJoin ps

/-- Position of the last occurrence of `c` in `l`, if any. -/
def lastIdxOf (c : Char) (l : List Char) : Option ℕ :=
  match (l.reverse.findIdx? (fun x => x = c)) with
  | none => none
  | some k => some (l.length - 1 - k)

/-- `os.path.splitext` on a single path component: split at the last dot,
unless every character before it is a dot. -/
def splitext (s : String) : String × String :=
  match lastIdxOf '.' s.data with
  | none => (s, "")
  | some i =>
    if (s.data.take i).any (fun c => c ≠ '.') then
      (⟨s.data.take i⟩, ⟨s.data.drop i⟩)
    else (s, "")

/-- `PureWindowsPath(name).suffix` (agrees with `splitext` on one component). -/
def pwSuffix (s : String) : String := (splitext s).2

/-- Python `name.rsplit("#", 1)` when `"#"` occurs: the pieces before and after
the last `#`. `none` when there is no `#`. -/
def rsplitHash (s : String) : Option (String × String) :=
  match lastIdxOf '#' s.data with
  | none => none
  | some i => some (⟨s.data.take i⟩, ⟨s.data.drop (i + 1)⟩)

/-- Python `str.startswith`. -/
def isPrefixS (p s : String) : Bool := p.data.isPrefixOf s.data

/-- Does the string end with a backslash (`new_path_no_ext[-1] == "\\"`). -/
def endsBackslash (s : String) : Bool := s.data.getLast? = some '\\'

/-- Does the string end with a decimal digit
(`new_path_no_ext[-1:] in set(DIGIT_CHARS)`; false for the empty string). -/
def endsDigit (s : String) : Bool :=
  match s.data.getLast? with
  | some c => isDigitC c
  | none => false

/-- Decimal digit characters of `n`, most significant first; `fuel` bounds the
recursion (any `fuel > n` is enough). -/
def natDigitsAux : ℕ → ℕ → List Char
  | 0, _ => []
  | f + 1, n => if n < 10 then [Nat.digitChar n] else natDigitsAux f (n / 10) ++ [Nat.digitChar (n % 10)]

/-- Decimal rendering of a natural number (Python `str(n)` / `"%s" % n`). -/
def natRepr (n : ℕ) : String := ⟨natDigitsAux (n + 1) n⟩

/-- Priorities: Python floats used only through their total order, with the
`float("inf")` / `-float("inf")` sentinels (`INF` of `refinery.constants`). -/
inductive Prio where
  | negInf : Prio
  | fin : ℤ → Prio
  | posInf : Prio
deriving DecidableEq

/-- Strict order on priorities (Python `<` on floats). -/
def Prio.blt : Prio → Prio → Bool
  | .negInf, .negInf => false
  | .negInf, _ => true
  | .fin _, .negInf => false
  | .fin a, .fin b => decide (a < b)
  | .fin _, .posInf => true
  | .posInf, _ => false

/-- Non-strict order on priorities. -/
def Prio.ble (a b : Prio) : Bool := !(Prio.blt b a)

/-- Python `min` on two priorities. -/
def Prio.pmin (a b : Prio) : Prio := if Prio.blt b a then b else a

/-- Python `max` on two priorities. -/
def Prio.pmax (a b : Prio) : Prio := if Prio.blt a b then b else a

/-- Decrement (`depth - 1` in the walker; the infinities are fixed points,
as for Python floats). -/
def Prio.decr : Prio → Prio
  | .fin a => .fin (a - 1)
  | x => x

section Dict

variable {κ α : Type} [DecidableEq κ]

/-- Python `dict.get(k)`: first (unique) binding of `k`. -/
def dGet : List (κ × α) → κ → Option α
  | [], _ => none
  | (k', v) :: t, k => if k' = k then some v else dGet t k

/-- Python `d[k] = v`: update the existing binding in place, else append. -/
def dInsert : List (κ × α) → κ → α → List (κ × α)
  | [], k, v => [(k, v)]
  | (k', v') :: t, k, v => if k' = k then (k, v) :: t else (k', v') :: dInsert t k v

/-- Python `d.pop(k, None)`: drop the binding of `k` if present. -/
def dPop : List (κ × α) → κ → List (κ × α)
  | [], _ => []
  | (k', v') :: t, k => if k' = k then t else (k', v') :: dPop t k

/-- The keys of a dict, in insertion order. -/
def dKeys (m : List (κ × α)) : List κ := m.map Prod.fst

end Dict

/-- One entry of the tag index: its current path (no extension), its class
(`class_1.enum_name`) and the `indexed` (pinned) flag. -/
structure TagRef where
  path : String
  class1 : String
  indexed : Bool
deriving DecidableEq

/-- The mutable state of `TagPathHandler`. -/
structure HState where
  index_map : List TagRef
  path_map : List (String × ℕ)
  priorities : List (ℕ × Prio)
  priority_mins : List (ℕ × Prio)
  overwritables : List (ℕ × Bool)
  def_priority : Prio
  root_dir_pfx : String
  perm_suffixed : List String
deriving DecidableEq

/-- `index & 0xFFff`. -/
def maskId (i : ℕ) : ℕ := i % 65536

/-- One iteration of the `__init__` loop over the enumerated tag index. -/
def initStep (st : HState) (p : ℕ × TagRef) : HState :=
  let i := p.1
  let ref := p.2
  let prio := if ref.indexed then Prio.posInf else st.def_priority
  { st with
    path_map := dInsert st.path_map (lowerS (ref.path ++ "." ++ ref.class1)) i
    priorities := dInsert st.priorities i prio
    priority_mins := dInsert st.priority_mins i prio
    overwritables := dInsert st.overwritables i (!ref.indexed) }

/-- `TagPathHandler.__init__`: build the path map and the priority, priority
floor and overwritable tables from the tag index array (pinned entries get
`INF` and are not overwritable). -/
def initState (arr : List TagRef) (defPrio : Prio) (perms : List String) : HState :=
  arr.enum.foldl initStep
    { index_map := arr, path_map := [], priorities := [], priority_mins := [],
      overwritables := [], def_priority := defPrio, root_dir_pfx := "",
      perm_suffixed := perms }

/-- `TagPathHandler.get_index_ref`. -/
def get_index_ref (st : HState) (idx : Option ℕ) : Option TagRef :=
  match idx with
  | none => none
  | some i => st.index_map[maskId i]?

/-- `TagPathHandler.get_priority` (with its default `-INF`). -/
def get_priority (st : HState) (idx : Option ℕ) : Prio :=
  match idx with
  | none => Prio.negInf
  | some i => (dGet st.priorities (maskId i)).getD Prio.negInf

/-- `TagPathHandler.get_priority_min` (with its default `INF`). -/
def get_priority_min (st : HState) (idx : Option ℕ) : Prio :=
  match idx with
  | none => Prio.posInf
  | some i => (dGet st.priority_mins (maskId i)).getD Prio.posInf

/-- `TagPathHandler.get_overwritable`. -/
def get_overwritable (st : HState) (idx : Option ℕ) : Bool :=
  match idx with
  | none => false
  | some i => (dGet st.overwritables (maskId i)).getD false

/-- `TagPathHandler.get_sub_dir`.  `PureWindowsPath(...).parts` is a tuple, so
the `dirs.pop(0)` in the common-prefix loop raises `AttributeError` as soon as
the loop body is entered, i.e. whenever both `dirs` and `root_dirs` are
nonempty and share their first component; that raise is the `Except.error`
arm. -/
def get_sub_dir (st : HState) (idx : Option ℕ) (root : String) : Except String String :=
  match get_index_ref st idx with
  | none => Except.ok ""
  | some ref =>
    let rootDirs := pwParts root
    let dirs := (pwParts ref.path).dropLast
    match dirs, rootDirs with
    | d :: _, r :: _ =>
      if d = r then Except.error "AttributeError"
      else Except.ok (pwJoin dirs ++ "\\")
    | [], _ => Except.ok ""
    | ds, [] => Except.ok (pwJoin ds ++ "\\")

/-- `TagPathHandler.get_will_overwrite`.  The result is `none` in the one
situation where the Python method dereferences a `None` `tag_ref` (an
`AttributeError`); every call the claims reach resolves the reference first,
which makes that arm provably unreachable there. -/
def get_will_overwrite (st : HState) (idx : Option ℕ) (prio : Option Prio)
    (override : Bool) : Option Bool :=
  match idx with
  | none => some false
  | some i =>
    let p := prio.getD st.def_priority
    if get_overwritable st (some i) = false then some false
    else if Prio.blt p (get_priority st (some i)) then some false
    else
      match get_index_ref st (some i) with
      | none => none
      | some tag_ref =>
        if (get_priority st (some i) = p ∨ tag_ref.indexed = true) ∧ override = false
        then some false
        else some true

/-- `TagPathHandler.set_priority` (the claims never pass `None` priorities to
it; `float(priority)` is the identity in the model). -/
def set_priority (st : HState) (idx : Option ℕ) (p : Prio) : HState :=
  match idx with
  | none => st
  | some i0 =>
    let i := maskId i0
    if i < st.index_map.length
    then { st with priorities := dInsert st.priorities i p }
    else st

/-- `TagPathHandler.set_priority_min`. -/
def set_priority_min (st : HState) (idx : Option ℕ) (p : Prio) : HState :=
  match idx with
  | none => st
  | some i0 =>
    let i := maskId i0
    if i < st.index_map.length
    then { st with priority_mins := dInsert st.priority_mins i p }
    else st

/-- Candidate probed at step `i` of unique-name generation: the raw name
first, then `name#1`, `name#2`, ... (`#` is the reserved disambiguation
separator that `set_path` strips before regenerating). -/
def gunCand (name : String) (i : ℕ) : String :=
  if i = 0 then name else name ++ "#" ++ natRepr i

/-- Is candidate `c` available in `coll`: its combined key is absent, or its
owner satisfies `isIg` (it is the ignored identity)? -/
def gunFree {α : Type} (coll : List (String × α)) (suffix : String)
    (isIg : α → Bool) (c : String) : Bool :=
  match dGet coll (c ++ suffix) with
  | none => true
  | some j => isIg j

/-- Probe loop of unique-name generation; `fuel` only bounds the recursion and
`coll.length + 2` probes always suffice (`gunGo_free`). -/
def gunGo {α : Type} (coll : List (String × α)) (name suffix : String)
    (isIg : α → Bool) : ℕ → ℕ → String
  | 0, i => gunCand name i
  | f + 1, i =>
    if gunFree coll suffix isIg (gunCand name i) then gunCand name i
    else gunGo coll name suffix isIg f (i + 1)

/-- Modelled from the spec: `refinery.util.get_unique_name` is code of this
repository that is not under `src/`.  Per the spec (§4.2 uniqueness
procedure), a fresh name is regenerated "by probing increasing numeric ...
suffixes until unused", the auto-appended disambiguation marker being a
reserved separator before the trailing digits — the `#` that `set_path`
strips.  The model probes `name`, `name#1`, `name#2`, ... and returns the
first candidate whose combined key `candidate ++ suffix` is absent from the
collection or already owned by the ignored identity (`isIg`). -/
def get_unique_name {α : Type} (coll : List (String × α)) (name : String)
    (suffix : String := "") (isIg : α → Bool := fun _ => false) : String :=
  gunGo coll name suffix isIg (coll.length + 2) 0

/-- Modelled from the spec: `refinery.util.sanitize_win32_path` is code of
this repository that is not under `src/`.  The spec (§4.2) describes the
normalization only as "Normalize to lowercase, trim", both of which the
caller applies itself, so the model keeps the backslash-separated components
unchanged. -/
def sanitize_win32_path (p : String) : List String := pwParts p

/-- `"protected_%s" % index`. -/
def protectedName (i : ℕ) : String := "protected_" ++ natRepr i

/-- The `KeyError` raised by `set_path` when the final path still collides
with a different identity. -/
inductive SetPathErr where
  | keyError (path : String)
deriving DecidableEq

/-- The `try`-block of `set_path`: strip a previously auto-appended `#`-digit
disambiguation marker from the basename (an empty piece list is the caught
`IndexError`). -/
def stripDisambig (pieces : List String) (can_digit : Bool) : List String :=
  match pieces.getLast? with
  | none => pieces
  | some bn =>
    match rsplitHash bn with
    | none => pieces
    | some pr =>
      if pr.2.data.all (if can_digit then isDigitC else isDigitUSC)
      then pieces.dropLast ++ [pr.1] else pieces

/-- Lines 230-252 of `set_path`: decide whether the normalized candidate
collides with a different identity or carries a forbidden digit suffix, and
if so regenerate a fresh name through the unique-name probe (underscore
armored for the suffix-forbidden classes). -/
def resolvePathName (st : HState) (i : ℕ) (p2 ext : String)
    (can_digit ensure_unique_name : Bool) : String :=
  let uniqueIssue :=
    match dGet st.path_map (p2 ++ ext) with
    | none => false
    | some j => decide (j ≠ i)
  let suffixIssue := !can_digit && endsDigit p2
  if suffixIssue || (ensure_unique_name && uniqueIssue) then
    let pieces := stripDisambig (pwParts p2) can_digit
    let base := get_unique_name st.path_map (pwJoinDot pieces)
      ((if can_digit then "" else "_") ++ ext) (fun j => decide (j = i))
    if can_digit then base else base ++ "_"
  else p2

/-- `TagPathHandler.set_path`.  Returns the updated state and the new full
path (`none` on the early `return` paths); the `KeyError` branch is the
`Except.error` arm and leaves the state unchanged, exactly as the raise
does. -/
def set_path (st : HState) (idx : Option ℕ) (path0 : String)
    (ensure_unique_name : Bool) (ensure_root_prefixed : Bool) :
    Except SetPathErr (HState × Option String) :=
  match idx with
  | none => Except.ok (st, none)
  | some i0 =>
    let i := maskId i0
    let p1 := lowerS path0
    let p1 := if ensure_root_prefixed ∧ ¬ (isPrefixS st.root_dir_pfx p1 = true)
              then st.root_dir_pfx ++ p1 else p1
    match get_index_ref st (some i) with
    | none => Except.ok (st, none)
    | some tag_ref =>
      let p1 := if p1 = "" ∨ endsBackslash p1 = true then p1 ++ protectedName i else p1
      let extl := lowerS tag_ref.class1
      let can_digit := !(st.perm_suffixed.contains extl)
      let ext := "." ++ extl
      let p2 := lowerS (trimS (pwJoinDot (sanitize_win32_path p1)))
      let p3 := resolvePathName st i p2 ext can_digit ensure_unique_name
      let oldKey := lowerS tag_ref.path ++ ext
      let newKey := p3 ++ ext
      match dGet st.path_map newKey with
      | some j =>
        if j ≠ i then Except.error (SetPathErr.keyError newKey)
        else Except.ok
          ({ st with path_map := dInsert (dPop st.path_map oldKey) newKey i,
                     index_map := st.index_map.set i { tag_ref with path := p3 } },
           some newKey)
      | none => Except.ok
          ({ st with path_map := dInsert (dPop st.path_map oldKey) newKey i,
                     index_map := st.index_map.set i { tag_ref with path := p3 } },
           some newKey)

/-- `TagPathHandler.set_path_by_priority`.  The `none` arm of
`get_will_overwrite` cannot arise here because `get_index_ref` has already
succeeded (`get_will_overwrite_isSome`); `getD false` is that dead arm. -/
def set_path_by_priority (st : HState) (idx : Option ℕ) (path0 : String)
    (prio : Option Prio) (override : Bool) :
    Except SetPathErr (Prio × HState) :=
  match get_index_ref st idx with
  | none => Except.ok (Prio.negInf, st)
  | some _ =>
    let p := prio.getD st.def_priority
    if (get_will_overwrite st idx (some p) override).getD false = false then
      Except.ok (get_priority st idx, st)
    else
      match set_path st idx path0 true true with
      | Except.error e => Except.error e
      | Except.ok (st1, _) => Except.ok (p, set_priority st1 idx p)

/-- A path-authority mutation: a `set_path` or `set_path_by_priority` call. -/
inductive PAOp where
  | setPath (idx : Option ℕ) (path : String) (ensure_unique ensure_root : Bool)
  | setPathByPriority (idx : Option ℕ) (path : String) (prio : Option Prio) (override : Bool)

/-- Apply one call; a raising call leaves the state unchanged. -/
def applyOp (st : HState) (op : PAOp) : HState :=
  match op with
  | .setPath i p u r =>
    match set_path st i p u r with
    | Except.ok x => x.1
    | Except.error _ => st
  | .setPathByPriority i p pr ov =>
    match set_path_by_priority st i p pr ov with
    | Except.ok x => x.2
    | Except.error _ => st

/-- Run a sequence of path-authority calls. -/
def runOps (st : HState) (ops : List PAOp) : HState := ops.foldl applyOp st

/-- The states of the path authority reachable from initial construction by
`set_path` / `set_path_by_priority` calls. -/
def Reachable (arr : List TagRef) (defPrio : Prio) (perms : List String)
    (st : HState) : Prop :=
  ∃ ops : List PAOp, st = runOps (initState arr defPrio perms) ops

/-- Total wrapper around `set_path_by_priority` used by the walker.  The
error arm is provably dead there: `set_path` called with
`ensure_unique_name=True` never raises (`set_path_by_priority_ok`). -/
def spbpRun (st : HState) (idx : Option ℕ) (path : String) (prio : Option Prio)
    (override : Bool) : Prio × HState :=
  match set_path_by_priority st idx path prio override with
  | Except.ok x => x
  | Except.error _ => (Prio.negInf, st)

/-- The keyword options threaded through `heuristic_deprotect`:
`use_minimum_priorities`, `use_minimum_equal_priorities`,
`return_on_equal_min_priority`, `override`, the proposed `priority`
(`None` when absent) and the remaining `depth` (a float defaulting to
`INF`). -/
structure WalkOpts where
  use_minimum_priorities : Bool
  use_minimum_equal_priorities : Bool
  return_on_equal_min_priority : Bool
  override : Bool
  priority : Option Prio
  depth : Prio
deriving DecidableEq

/-- The calling shape of a `rename_*` naming policy of
`refinery/heuristic_deprotection/functions.py`: the recursive
`heuristic_deprotect` entry (`w`, the embedding's callback at the smaller
fuel), the handler state, the shared seen set, the raw tag id, `root_dir`,
`sub_dir`, `name`, and the keyword options; the result is the final value
of the calling level's `min_priority` accumulator together with the mutated
handler state.  The `MinPriority` cell of `heuristic_deprotection.util` is
absent from src/ and is modelled from the spec (§7: each caller computes
the minimum with every value written through the cell, behaviorally
equivalent to the shared cell itself); the walker catches a raising policy
and only prints the traceback, so a policy value here returns the
accumulator and state it had reached at its fault point. -/
def RenameFn : Type :=
  (HState → List ℕ → Option ℕ → String → String → String → WalkOpts → Prio × HState) →
  HState → List ℕ → ℕ → String → String → String → WalkOpts → Prio × HState

/-- The class-name-keyed policy registry lookup
(`recursive_rename_functions.get`; the dict is built at
functions.py line 3089). -/
def PolicyReg : Type := String → Option RenameFn

/-- The class of tag `tix` (`tag_index[tag_index_id].class_1.enum_name`; the
walker's `halo_map.tag_index.tag_index` is the same array the handler was
constructed from). -/
def className (st : HState) (tix : ℕ) : String :=
  match st.index_map[tix]? with
  | some ref => ref.class1
  | none => ""

/-- Modelled from the spec: the priority tiers of
`heuristic_deprotection.constants` are not in src/; the spec (§3) only
requires priorities to be totally ordered numbers, and the embedding fixes
the tier `LOW_PRIORITY` used by `rename_tagc` as the finite value `1`. -/
def LOW_PRIORITY : Prio := Prio.fin 1

/-- `TagPathHandler.get_basename` (lines 187-191): the `PureWindowsPath`
name of the tag's current path — its last component — and `""` for an
unresolvable identity. -/
def get_basename (st : HState) (idx : Option ℕ) : String :=
  match get_index_ref st idx with
  | none => ""
  | some tag_ref => ((pwParts tag_ref.path).getLast?).getD ""

/-- `rename_tagc` (functions.py lines 2097-2120), the `tag_collection`
policy: default the name to `protected_<id>`, fetch the meta, propose the
collection's own path at `LOW_PRIORITY` through the path authority,
re-derive its directory and basename from the handler, and recurse into
every referenced tag under `<dir><basename>\`.  `gmeta` stands for the
external reclaimer map the walker is given (`halo_map.get_meta` plus
`get_tag_id` on each `tag_references` entry, both outside src/): the tag's
dependency list, `none` where the meta is unreadable.  The `get_sub_dir`
call can raise (the C9 fault); per the walker's catch-and-continue, the
error arm returns the accumulator and state reached at that point. -/
def rename_tagc (gmeta : ℕ → Option (List (Option ℕ))) : RenameFn :=
  fun w st seen tag_id root_dir sub_dir name kw =>
    let name := if name = "" then "protected_" ++ natRepr tag_id else name
    match gmeta tag_id with
    | none => (Prio.posInf, st)
    | some childIds =>
      let r := spbpRun st (some tag_id) (root_dir ++ sub_dir ++ name)
          (some LOW_PRIORITY) kw.override
      let acc1 := Prio.pmin Prio.posInf r.1
      match get_sub_dir r.2 (some tag_id) root_dir with
      | Except.error _ => (acc1, r.2)
      | Except.ok sub_dir2 =>
        let name2 := get_basename r.2 (some tag_id)
        childIds.foldl
          (fun (a : Prio × HState) cid =>
            let rc := w a.2 seen cid root_dir (sub_dir2 ++ name2 ++ "\\") ""
                { kw with priority := some LOW_PRIORITY }
            (Prio.pmin a.1 rc.1, rc.2))
          (acc1, r.2)

/-- The post-gate body of `heuristic_deprotect` (lines 48-67): decrementing
`depth` and inserting into `seen` already happened; look the tag's class up
in the registry and run the policy inside the `try` (a raising policy has
its traceback printed and the walk continues, so the policy's value is the
accumulator and state at its fault point), else fall back to a direct
`set_path_by_priority`; the level's fresh `min_priority` accumulator
(spec-modelled `MinPriority`, starting at `+∞`) is then persisted as the
tag's priority floor and returned.  `w` is the recursive call at the
smaller fuel. -/
def walkProceed (reg : PolicyReg)
    (w : HState → List ℕ → Option ℕ → String → String → String → WalkOpts → Prio × HState)
    (st : HState) (seen : List ℕ) (tid tix : ℕ)
    (root_dir sub_dir name : String) (kw : WalkOpts) : Prio × HState :=
  match reg (className st tix) with
  | some rename_func =>
    let res := rename_func w st seen tid root_dir sub_dir name kw
    (res.1, set_priority_min res.2 (some tix) res.1)
  | none =>
    let r := spbpRun st (some tid) (root_dir ++ sub_dir ++ name) kw.priority kw.override
    let acc := Prio.pmin Prio.posInf r.1
    (acc, set_priority_min r.2 (some tix) acc)

/-- `heuristic_deprotect(tag_id, halo_map, tag_path_handler, root_dir,
sub_dir, name, **kw)`.  `fuel` is an artifact of the embedding: the Python
recursion is bounded by the `seen` set (each level inserts a fresh valid
masked id before recursing and removes it on return), so any fuel exceeding
the number of distinct visitable tags gives the function's value; the
claims' theorems quantify over such fuels.  `seen` is threaded downward
only, which is exactly the add-before-recurse / remove-after-return
discipline of the shared Python set. -/
def walk (reg : PolicyReg) :
    ℕ → HState → List ℕ → Option ℕ → String → String → String → WalkOpts → Prio × HState
  | 0, st, _, _, _, _, _, _ => (Prio.posInf, st)
  | fuel + 1, st, seen, tagId, root_dir, sub_dir, name, kw =>
    match tagId with
    | none => (Prio.posInf, st)
    | some tid =>
      let tix := maskId tid
      if st.index_map.length ≤ tix then (Prio.posInf, st)
      else
        let currMin := get_priority_min st (some tix)
        if tix ∈ seen ∨ Prio.blt kw.depth (Prio.fin 0) then (currMin, st)
        else
          let gateStop : Bool :=
            match kw.use_minimum_priorities, kw.priority with
            | true, some p =>
              if Prio.blt currMin p then false
              else if Prio.blt p currMin ||
                  (kw.use_minimum_equal_priorities && kw.return_on_equal_min_priority)
                then true
                else false
            | _, _ => false
          if gateStop then (currMin, st)
          else
            walkProceed reg (walk reg fuel) st (tix :: seen) tid tix
              root_dir sub_dir name { kw with depth := kw.depth.decr }

/-!  The path compactor `TagPathHandler.shorten_paths`.  The nested Python
dicts of its directory trie become the inductive `TEntry`; the two
`LifoQueue`-driven loops are embedded as the recursions they implement (the
stack holds exactly the frames of the enclosing directories, and every
iteration is over `sorted(...)`, so the model keeps each dict's entries
sorted by key at all times).  Each runtime error of the Python code is a
distinct `SErr` arm:
* `tooNested`: the `ValueError` of the nesting check (raised only when
  `print_errors` is off);
* `valueError`: `with_suffix` on a path with an empty name;
* `indexError`: `self._index_map[index]` out of range (or the matching
  bounds check of a leaf during the apply loop);
* `attrError`: `.setdefault`/item assignment on a non-dict trie value, and
  the `self.get_unique_name` attribute lookup in the reparent merge
  (`TagPathHandler` has no such method — the module-level function was
  imported instead — so a nonempty reparent list always faults);
* `typeError`: `len()` of a `PureWindowsPath` in the printouts, and
  `tag_path + "."` in the path-map rebuild once an apply-loop rename has
  stored a `PureWindowsPath` object in `ref.path`;
* `fuel`: an artifact arm for the structural-recursion bound (never reached
  when the bound is the trie size, as `shorten_paths` passes it). -/

/-- A directory trie node: Python's nested dicts of `shorten_paths`, a leaf
holding `None` or the tag reference (by index). -/
inductive TEntry where
  | dir (entries : List (String × TEntry))
  | leaf (v : Option ℕ)

/-- Lexicographic order on character lists (Python `<` on strings). -/
def strLtL : List Char → List Char → Bool
  | [], [] => false
  | [], _ :: _ => true
  | _ :: _, [] => false
  | a :: as, b :: bs =>
    if a.toNat < b.toNat then true
    else if b.toNat < a.toNat then false
    else strLtL as bs

/-- Lexicographic order on strings. -/
def strLtB (a b : String) : Bool := strLtL a.data b.data

/-- Keyed insertion keeping the entry list sorted (Python dict assignment;
the model keeps trie dicts sorted because `shorten_paths` only ever iterates
them through `sorted(...)`). -/
def sInsert (es : List (String × TEntry)) (k : String) (v : TEntry) :
    List (String × TEntry) :=
  match es with
  | [] => [(k, v)]
  | (k', v') :: t =>
    if k = k' then (k, v) :: t
    else if strLtB k k' then (k, v) :: (k', v') :: t
    else (k', v') :: sInsert t k v

/-- The runtime faults of `shorten_paths` (see the section comment). -/
inductive SErr where
  | tooNested | valueError | indexError | attrError | typeError | fuel
deriving DecidableEq

/-- The error text of the nesting check. -/
def nestedErrStr (max_len : ℕ) : String :=
  "Tag paths too nested to shorten to " ++ natRepr max_len ++ " chars."

/-- Descend the directory components and store the leaf
(`curr_dir.setdefault(dname, {})` repeated, then
`curr_dir[tag_path_pieces[-1]] = tag_ref`); meeting a non-dict on the way
faults. -/
def buildInsert (paths : List (String × TEntry)) (pieces : List String)
    (v : Option ℕ) : Except SErr (List (String × TEntry)) :=
  match pieces with
  | [] => Except.error SErr.indexError
  | [last] => Except.ok (sInsert paths last (TEntry.leaf v))
  | d :: rest =>
    match dGet paths d with
    | some (TEntry.dir sub) =>
      match buildInsert sub rest v with
      | Except.error e => Except.error e
      | Except.ok sub2 => Except.ok (sInsert paths d (TEntry.dir sub2))
    | some (TEntry.leaf _) => Except.error SErr.attrError
    | none =>
      match buildInsert [] rest v with
      | Except.error e => Except.error e
      | Except.ok sub2 => Except.ok (sInsert paths d (TEntry.dir sub2))

/-- The first `for` of `shorten_paths` (lines 315-340): for each path-map
entry, normalize, flag below-budget tags with a `None` leaf, run the
nesting check, and insert into the trie.  `Except.ok none` is the
`print(err_str); return` arm taken when `print_errors` is set. -/
def buildLoop (st : HState) (max_len : ℕ) (print_errors : Bool) :
    List (String × ℕ) → List (String × TEntry) →
    Except SErr (Option (List (String × TEntry)))
  | [], acc => Except.ok (some acc)
  | (key, index) :: rest, acc =>
    let tp := pwParts (lowerS key)
    match tp.getLast? with
    | none => Except.error SErr.valueError
    | some last =>
      let noExtLen := (pwJoin (tp.dropLast ++ [(splitext last).1])).length
      let idx2 : Option ℕ := if noExtLen < max_len then none else some index
      if (tp.length - 1) * 4 > max_len then
        if print_errors = false then Except.error SErr.tooNested
        else Except.ok none
      else
        match idx2 with
        | some i =>
          if i < st.index_map.length then
            match buildInsert acc tp (some i) with
            | Except.error e => Except.error e
            | Except.ok acc2 => buildLoop st max_len print_errors rest acc2
          else Except.error SErr.indexError
        | none =>
          match buildInsert acc tp none with
          | Except.error e => Except.error e
          | Except.ok acc2 => buildLoop st max_len print_errors rest acc2

/-- Words matched from the front (`for i in range(min(len, len)): if a[i] != b[i]: break`). -/
def commonFrontCount : List (List Char) → List (List Char) → ℕ
  | a :: as, b :: bs => if a = b then commonFrontCount as bs + 1 else 0
  | _, _ => 0

/-- `TagPathHandler.shorten_name_to_parent`: delete the longest common
leading and trailing word runs shared with the (already shortened) parent
name. -/
def shorten_name_to_parent (parent name : String) : String :=
  let jc : Char := if name.data.contains '_' then '_' else ' '
  let toWords := fun (s : String) =>
    splitCh ' ' (s.data.map (fun c => if c = '_' then ' ' else c))
  let pp := toWords parent
  let np := toWords name
  let start := commonFrontCount pp np
  let stop := np.length - commonFrontCount pp.reverse np.reverse
  ⟨joinCh jc ((np.drop start).take (stop - start))⟩

/-- Append a value to the reparent dict entry
(`reparent.setdefault(parent + ext, []).append(val)`). -/
def repAdd (rep : List (String × List (Option ℕ))) (k : String) (v : Option ℕ) :
    List (String × List (Option ℕ)) :=
  match dGet rep k with
  | none => rep ++ [(k, [v])]
  | some l => dInsert rep k (l ++ [v])

/-- The preliminary shortening loop of `shorten_paths` (lines 345-416),
embedded as the recursion its explicit stack implements: process the sorted
entries of one source directory into the target dict `tgt`, accumulating
the frame's reparent dict.  A nonempty child reparent dict faults at the
merge (`self.get_unique_name` does not exist), and the root frame's own
reparent dict is dropped, exactly as the `break` drops it. -/
def shortenList : ℕ → String → List (String × TEntry) → List (String × TEntry) →
    List (String × List (Option ℕ)) →
    Except SErr (List (String × TEntry) × List (String × List (Option ℕ)))
  | 0, _, _, _, _ => Except.error SErr.fuel
  | _ + 1, _, [], tgt, rep => Except.ok (tgt, rep)
  | f + 1, parent, (name, TEntry.leaf v) :: rest, tgt, rep =>
    let pe := splitext name
    let new_base := if v.isSome then shorten_name_to_parent parent pe.1 else pe.1
    if new_base ≠ "" then
      shortenList f parent rest (sInsert tgt (new_base ++ pe.2) (TEntry.leaf v)) rep
    else
      shortenList f parent rest tgt (repAdd rep (parent ++ pe.2) v)
  | f + 1, parent, (_name, TEntry.dir []) :: rest, tgt, rep =>
    shortenList f parent rest tgt rep
  | f + 1, parent, (name, TEntry.dir sub) :: rest, tgt, rep =>
      let new_name := get_unique_name tgt (shorten_name_to_parent parent name)
      if new_name ≠ "" then
        match shortenList f new_name sub [] [] with
        | Except.error e => Except.error e
        | Except.ok x =>
          if x.2 ≠ [] then Except.error SErr.attrError
          else shortenList f parent rest (sInsert tgt new_name (TEntry.dir x.1)) rep
      else
        match shortenList f parent sub tgt [] with
        | Except.error e => Except.error e
        | Except.ok x =>
          if x.2 ≠ [] then Except.error SErr.attrError
          else shortenList f parent rest x.1 rep

/-- A tag path field during the apply loop: still the original string, or
the `PureWindowsPath` object a rename stored (whose later uses fault). -/
inductive PathVal where
  | str (s : String)
  | pw (pieces : List String) (suffix : String)
deriving DecidableEq

/-- A tag reference while `shorten_paths` runs. -/
structure SRef where
  path : PathVal
  class1 : String
  indexed : Bool
deriving DecidableEq

/-- The apply loop of `shorten_paths` (lines 420-452), as the recursion its
stack implements: walk the shortened trie in sorted order, skipping `None`
and pinned leaves, and store the rebuilt `PureWindowsPath` on every other
leaf's tag.  With `do_printout` the `len(new_tag_path)` of the printout
faults first; an empty piece list faults `with_suffix`. -/
def applyList : ℕ → List String → List (String × TEntry) → List SRef → Bool →
    Except SErr (List SRef)
  | 0, _, _, _, _ => Except.error SErr.fuel
  | _ + 1, _, [], imap, _ => Except.ok imap
  | f + 1, pieces, (_name, TEntry.dir []) :: rest, imap, dp =>
    applyList f pieces rest imap dp
  | f + 1, pieces, (name, TEntry.dir sub) :: rest, imap, dp =>
      match applyList f (pieces ++ [name]) sub imap dp with
      | Except.error e => Except.error e
      | Except.ok imap2 => applyList f pieces rest imap2 dp
  | f + 1, pieces, (name, TEntry.leaf v) :: rest, imap, dp =>
    match v with
    | none => applyList f pieces rest imap dp
    | some i =>
      match imap[i]? with
      | none => Except.error SErr.indexError
      | some ref =>
        if ref.indexed then applyList f pieces rest imap dp
        else if pieces = [] then Except.error SErr.valueError
        else if dp then Except.error SErr.typeError
        else
          applyList f pieces rest
            (imap.set i { ref with path := PathVal.pw pieces (pwSuffix name) }) dp

/-- The path-map rebuild of `shorten_paths` (lines 455-462): warn (when
`do_printout`) about over-budget paths and rebuild the map; a
`PureWindowsPath` stored in any `path` faults (`len(tag_path)` or
`tag_path + "."`). -/
def remakeLoop (max_len : ℕ) (dp : Bool) :
    ℕ → List SRef → List (String × ℕ) → List String → List TagRef →
    Except SErr (List String × List (String × ℕ) × List TagRef)
  | _, [], pm, log, refs => Except.ok (log, pm, refs)
  | i, ref :: rest, pm, log, refs =>
    match ref.path with
    | PathVal.pw _ _ => Except.error SErr.typeError
    | PathVal.str s =>
      let log2 := if dp ∧ s.length > max_len
        then log ++ ["WARNING: " ++ s ++ " is over the length limit."] else log
      remakeLoop max_len dp (i + 1) rest
        (dInsert pm (lowerS (s ++ "." ++ ref.class1)) i) log2
        (refs ++ [⟨s, ref.class1, ref.indexed⟩])

/-- Recursion bound for the two trie walks: one more than the total number
of path components ever inserted, a bound on the trie's node count.  An
artifact of the embedding (see the section comment); the claims' concrete
runs never reach it, and the theorems treat the `fuel` arm as one more
fault arm. -/
def trieFuel (st : HState) : ℕ :=
  1 + st.path_map.foldl (fun a p => a + (pwParts (lowerS p.1)).length + 1) 1

/-- `TagPathHandler.shorten_paths(max_len, do_printout=..., print_errors=...)`.
Returns the printed lines and the final state, or the raised fault. -/
def shorten_paths (st : HState) (max_len : ℕ) (do_printout print_errors : Bool) :
    Except SErr (List String × HState) :=
  match buildLoop st max_len print_errors st.path_map [] with
  | Except.error e => Except.error e
  | Except.ok none => Except.ok ([nestedErrStr max_len], st)
  | Except.ok (some paths) =>
    match shortenList (trieFuel st) "" paths [] [] with
    | Except.error e => Except.error e
    | Except.ok x =>
      let srefs := st.index_map.map (fun r => SRef.mk (PathVal.str r.path) r.class1 r.indexed)
      match applyList (trieFuel st) [] x.1 srefs do_printout with
      | Except.error e => Except.error e
      | Except.ok srefs2 =>
        match remakeLoop max_len do_printout 0 srefs2 [] [] [] with
        | Except.error e => Except.error e
        | Except.ok y =>
          Except.ok (y.1, { st with index_map := y.2.2, path_map := y.2.1 })

/-! Order lemmas for `Prio`. -/

theorem Prio.blt_irrefl (a : Prio) : Prio.blt a a = false := by
  cases a <;> simp [Prio.blt]

theorem Prio.blt_asymm {a b : Prio} (h : Prio.blt a b = true) : Prio.blt b a = false := by
  cases a <;> cases b <;> simp_all [Prio.blt] <;> omega

theorem Prio.not_blt_iff {a b : Prio} : Prio.blt a b = false ↔ Prio.blt b a = true ∨ a = b := by
  cases a <;> cases b <;> simp [Prio.blt] <;> omega

theorem Prio.pmax_eq_right {a b : Prio} (h : Prio.blt b a = false) : Prio.pmax a b = b := by
  rcases Prio.not_blt_iff.mp h with h2 | h2
  · simp [Prio.pmax, h2]
  · subst h2; simp [Prio.pmax, Prio.blt_irrefl]

/-! Lemmas about the dict operations. -/

section DictLemmas

variable {κ α : Type} [DecidableEq κ]

theorem dGet_dInsert_self (m : List (κ × α)) (k : κ) (v : α) :
    dGet (dInsert m k v) k = some v := by
  induction m with
  | nil => simp [dInsert, dGet]
  | cons h t ih =>
    obtain ⟨k', v'⟩ := h
    by_cases hk : k' = k
    · subst hk; simp [dInsert, dGet]
    · simp [dInsert, dGet, hk, ih, if_neg hk]

theorem dGet_dInsert_ne (m : List (κ × α)) (k k2 : κ) (v : α) (h : k ≠ k2) :
    dGet (dInsert m k v) k2 = dGet m k2 := by
  induction m with
  | nil => simp [dInsert, dGet, h]
  | cons hd t ih =>
    obtain ⟨k', v'⟩ := hd
    by_cases hk : k' = k
    · subst hk; simp [dInsert, dGet, h]
    · simp only [dInsert, if_neg hk]
      by_cases hk2 : k' = k2 <;> simp [dGet, hk2, ih]

theorem dGet_mem {m : List (κ × α)} {k : κ} {v : α} (h : dGet m k = some v) :
    (k, v) ∈ m := by
  induction m with
  | nil => simp [dGet] at h
  | cons hd t ih =>
    obtain ⟨k', v'⟩ := hd
    by_cases hk : k' = k
    · subst hk
      simp [dGet] at h
      simp [h]
    · simp [dGet, hk] at h
      exact List.mem_cons_of_mem _ (ih h)

theorem dGet_eq_none_iff {m : List (κ × α)} {k : κ} :
    dGet m k = none ↔ k ∉ dKeys m := by
  induction m with
  | nil => simp [dGet, dKeys]
  | cons hd t ih =>
    obtain ⟨k', v'⟩ := hd
    by_cases hk : k' = k
    · subst hk; simp [dGet, dKeys]
    · simp [dGet, hk, dKeys, ih, Ne.symm hk]

theorem dGet_of_mem_nodup {m : List (κ × α)} {k : κ} {v : α}
    (hnd : (dKeys m).Nodup) (h : (k, v) ∈ m) : dGet m k = some v := by
  induction m with
  | nil => simp at h
  | cons hd t ih =>
    obtain ⟨k', v'⟩ := hd
    simp only [dKeys, List.map_cons, List.nodup_cons] at hnd
    rcases List.mem_cons.mp h with h1 | h1
    · have hk1 : k' = k := (congrArg Prod.fst h1).symm
      have hv1 : v' = v := (congrArg Prod.snd h1).symm
      subst hk1; subst hv1
      simp [dGet]
    · have hk : k' ≠ k := by
        rintro rfl
        exact hnd.1 (List.mem_map.mpr ⟨(k', v), h1, rfl⟩)
      simp [dGet, hk]
      exact ih hnd.2 h1

theorem mem_dPop {m : List (κ × α)} {k : κ} {p : κ × α}
    (hnd : (dKeys m).Nodup) :
    p ∈ dPop m k ↔ p ∈ m ∧ p.1 ≠ k := by
  induction m with
  | nil => simp [dPop]
  | cons hd t ih =>
    obtain ⟨k', v'⟩ := hd
    simp only [dKeys, List.map_cons, List.nodup_cons] at hnd
    by_cases hk : k' = k
    · subst hk
      simp only [dPop, if_pos rfl]
      constructor
      · intro hp
        refine ⟨List.mem_cons_of_mem _ hp, ?_⟩
        rintro rfl
        exact hnd.1 (List.mem_map.mpr ⟨p, hp, (by cases p; simp_all)⟩)
      · rintro ⟨hp, hne⟩
        rcases List.mem_cons.mp hp with h1 | h1
        · exact absurd (by rw [h1]) hne
        · exact h1
    · simp only [dPop, if_neg hk]
      constructor
      · intro hp
        rcases List.mem_cons.mp hp with h1 | h1
        · subst h1
          exact ⟨List.mem_cons_self _ _, hk⟩
        · have := (ih hnd.2).mp h1
          exact ⟨List.mem_cons_of_mem _ this.1, this.2⟩
      · rintro ⟨hp, hne⟩
        rcases List.mem_cons.mp hp with h1 | h1
        · subst h1; exact List.mem_cons_self _ _
        · exact List.mem_cons_of_mem _ ((ih hnd.2).mpr ⟨h1, hne⟩)

theorem dKeys_dPop_sublist (m : List (κ × α)) (k : κ) :
    (dKeys (dPop m k)).Sublist (dKeys m) := by
  induction m with
  | nil => simp [dPop]
  | cons hd t ih =>
    obtain ⟨k', v'⟩ := hd
    by_cases hk : k' = k
    · simp only [dPop, if_pos hk, dKeys, List.map_cons]
      exact (List.sublist_cons_self _ _)
    · simp only [dPop, if_neg hk, dKeys, List.map_cons]
      exact List.Sublist.cons₂ _ ih

theorem dKeys_dPop_nodup {m : List (κ × α)} (k : κ) (hnd : (dKeys m).Nodup) :
    (dKeys (dPop m k)).Nodup :=
  (dKeys_dPop_sublist m k).nodup hnd

theorem dGet_dPop_eq_none {m : List (κ × α)} {k : κ}
    (hnd : (dKeys m).Nodup) : dGet (dPop m k) k = none := by
  rw [dGet_eq_none_iff]
  intro hmem
  obtain ⟨⟨k2, v2⟩, hp, hk⟩ := List.mem_map.mp hmem
  have := (mem_dPop hnd).mp hp
  exact this.2 (by simpa using hk)

end DictLemmas

/-! Lemmas about lowercasing and string assembly. -/

theorem toNat_ofNat_valid (n : ℕ) (h : n.isValidChar) : (Char.ofNat n).toNat = n := by
  simp only [Char.ofNat, dif_pos h, Char.ofNatAux, Char.toNat, UInt32.toNat]
  simp [BitVec.toNat_ofNatLt]

theorem lowerChar_idem (c : Char) : lowerChar (lowerChar c) = lowerChar c := by
  unfold lowerChar
  split
  · next h =>
    have hv : (c.toNat + 32).isValidChar := by left; omega
    have ht : (Char.ofNat (c.toNat + 32)).toNat = c.toNat + 32 := toNat_ofNat_valid _ hv
    rw [if_neg (by rw [ht]; omega)]
  · rfl

theorem string_eq_of_data {a b : String} (h : a.data = b.data) : a = b := by
  cases a; cases b; exact congrArg String.mk h

theorem data_lowerS (s : String) : (lowerS s).data = s.data.map lowerChar := rfl

theorem lowerS_append (a b : String) : lowerS (a ++ b) = lowerS a ++ lowerS b := by
  apply string_eq_of_data
  simp [data_lowerS, String.data_append]

/-- A string made of lowercase-fixed characters. -/
def LowerFixed (s : String) : Prop := ∀ c ∈ s.data, lowerChar c = c

theorem map_eq_self_of_fixed {l : List Char} (h : ∀ c ∈ l, lowerChar c = c) :
    l.map lowerChar = l := by
  induction l with
  | nil => rfl
  | cons c t ih =>
    have hc := h c (by simp)
    simp only [List.map_cons, hc, List.cons.injEq, true_and]
    exact ih (fun x hx => h x (List.mem_cons_of_mem _ hx))

theorem lowerS_eq_self {s : String} (h : LowerFixed s) : lowerS s = s := by
  apply string_eq_of_data
  simp only [data_lowerS]
  exact map_eq_self_of_fixed h

theorem lowerFixed_lowerS (s : String) : LowerFixed (lowerS s) := by
  intro c hc
  simp only [data_lowerS, List.mem_map] at hc
  obtain ⟨c0, _, rfl⟩ := hc
  exact lowerChar_idem c0

theorem lowerFixed_append {a b : String} (ha : LowerFixed a) (hb : LowerFixed b) :
    LowerFixed (a ++ b) := by
  intro c hc
  rw [String.data_append] at hc
  rcases List.mem_append.mp hc with h | h
  · exact ha c h
  · exact hb c h

/-- C9: the spec claims `get_sub_dir` returns the directory part of the tag's
path with the components shared as a common leading prefix with `root`
removed, without raising.  The code is a slip: `PureWindowsPath(...).parts`
is a tuple, so the `dirs.pop(0)` of the stripping loop raises
`AttributeError` the moment a common prefix actually exists — here tag 0 has
path `x\a\b` and `root = "x"`, the claim demands `"a\"`, and the code
raises. -/
theorem c9_get_sub_dir_raises :
    get_sub_dir (initState [⟨"x\\a\\b", "weap", false⟩] (Prio.fin 0) []) (some 0) "x" =
      Except.error "AttributeError" := by decide

/-- C10: for every identity that is nil or whose masked low 16 bits fall
outside the tag index, `set_path_by_priority` returns the `-INF` sentinel and
mutates no state, while the walker returns `+INF` for the same unresolvable
identities (and also mutates nothing). -/
theorem c10_invalid_identity_sentinels
    (st : HState) (idx : Option ℕ)
    (h : idx = none ∨ ∃ i, idx = some i ∧ st.index_map.length ≤ maskId i)
    (path : String) (prio : Option Prio) (ov : Bool)
    (reg : PolicyReg) (f : ℕ) (seen : List ℕ) (root sub nm : String) (kw : WalkOpts) :
    set_path_by_priority st idx path prio ov = Except.ok (Prio.negInf, st) ∧
    walk reg (f + 1) st seen idx root sub nm kw = (Prio.posInf, st) := by
  have href : get_index_ref st idx = none := by
    rcases h with rfl | ⟨i, rfl, hlen⟩
    · rfl
    · simp [get_index_ref, List.getElem?_eq_none hlen]
  refine ⟨by simp [set_path_by_priority, href], ?_⟩
  rcases h with rfl | ⟨i, rfl, hlen⟩
  · simp [walk]
  · simp only [walk]
    rw [if_pos hlen]

/-- Witness for C10 at a concrete state: one tag, raw identity `65537`
masking down to `1`, which is outside the one-entry index. -/
theorem c10_invalid_identity_sentinels_witness :
    ((some 65537 : Option ℕ) = none ∨ ∃ i, (some 65537 : Option ℕ) = some i ∧
        (initState [⟨"a", "c", false⟩] (Prio.fin 0) []).index_map.length ≤ maskId i) ∧
      (set_path_by_priority (initState [⟨"a", "c", false⟩] (Prio.fin 0) []) (some 65537)
          "p" none false =
        Except.ok (Prio.negInf, initState [⟨"a", "c", false⟩] (Prio.fin 0) []) ∧
      walk (fun _ => none) 1 (initState [⟨"a", "c", false⟩] (Prio.fin 0) []) [] (some 65537)
          "" "" "" ⟨false, false, false, false, none, Prio.posInf⟩ =
        (Prio.posInf, initState [⟨"a", "c", false⟩] (Prio.fin 0) [])) :=
  ⟨Or.inr ⟨65537, rfl, by decide⟩,
   c10_invalid_identity_sentinels _ _ (Or.inr ⟨65537, rfl, by decide⟩) _ _ _ _ 0 _ _ _ _ _⟩

/-- The state of the C5 input: one unpinned tag whose priority floor was
recorded as `5`. -/
def c5State : HState :=
  set_priority_min (initState [⟨"t0", "c", false⟩] (Prio.fin 0) []) (some 0) (Prio.fin 5)

/-- C5 fails as stated: with `use_minimum_priorities` set, proposal `5` equal
to the recorded floor `5`, and `return_on_equal_min_priority` set (but
`use_minimum_equal_priorities` not set), the claim demands that the walker
skip traversal and return the floor; the code instead proceeds — the result
differs from `(floor, unchangedState)` because the traversal renames the
tag. -/
theorem c5_counterexample :
    get_priority_min c5State (some 0) = Prio.fin 5 ∧
    walk (fun _ => none) 1 c5State [] (some 0) "" "y\\" "c"
        ⟨true, false, true, false, some (Prio.fin 5), Prio.posInf⟩ ≠
      (Prio.fin 5, c5State) := by decide

/-- C5 as amended: with `use_minimum_priorities` set and a proposed priority
given (and the identity valid, unvisited, with depth not exhausted), the
walker skips traversal and returns the recorded floor exactly when the floor
is strictly greater than the proposal, or the floor equals the proposal and
*both* `use_minimum_equal_priorities` and `return_on_equal_min_priority` are
set; when the floor is strictly less than the proposal — or equal without
both of those flags — it proceeds with full traversal. -/
theorem c5_walker_gate (reg : PolicyReg) (f : ℕ) (st : HState) (seen : List ℕ)
    (tid : ℕ) (root sub nm : String) (kw : WalkOpts) (p : Prio)
    (hvalid : maskId tid < st.index_map.length)
    (hseen : maskId tid ∉ seen)
    (hdepth : Prio.blt kw.depth (Prio.fin 0) = false)
    (husemin : kw.use_minimum_priorities = true)
    (hprio : kw.priority = some p) :
    (Prio.blt p (get_priority_min st (some (maskId tid))) = true ∨
        (get_priority_min st (some (maskId tid)) = p ∧
          kw.use_minimum_equal_priorities = true ∧
          kw.return_on_equal_min_priority = true) →
      walk reg (f + 1) st seen (some tid) root sub nm kw =
        (get_priority_min st (some (maskId tid)), st)) ∧
    (Prio.blt (get_priority_min st (some (maskId tid))) p = true ∨
        (get_priority_min st (some (maskId tid)) = p ∧
          (kw.use_minimum_equal_priorities = false ∨
            kw.return_on_equal_min_priority = false)) →
      walk reg (f + 1) st seen (some tid) root sub nm kw =
        walkProceed reg (walk reg f) st (maskId tid :: seen) tid (maskId tid)
          root sub nm { kw with depth := kw.depth.decr }) := by
  simp only [walk]
  rw [if_neg (by omega), if_neg (by simp [hseen, hdepth]), husemin, hprio]
  constructor
  · intro hstop
    have hnotlt : Prio.blt (get_priority_min st (some (maskId tid))) p = false := by
      rcases hstop with h1 | ⟨h1, _⟩
      · exact Prio.blt_asymm h1
      · rw [h1]; exact Prio.blt_irrefl p
    have hcond : (Prio.blt p (get_priority_min st (some (maskId tid))) ||
        (kw.use_minimum_equal_priorities && kw.return_on_equal_min_priority)) = true := by
      rcases hstop with h1 | ⟨_, h2, h3⟩
      · simp [h1]
      · simp [h2, h3]
    simp [hnotlt, hcond]
  · intro hgo
    rcases hgo with h1 | ⟨h1, h2⟩
    · simp [h1]
    · have hp : Prio.blt p p = false := Prio.blt_irrefl p
      have hflags : (kw.use_minimum_equal_priorities && kw.return_on_equal_min_priority) = false := by
        rcases h2 with h2 | h2 <;> simp [h2]
      simp [h1, hp, hflags, Prio.blt_irrefl]

/-- Witness for the amended C5 at a concrete state: floor `7`, proposal `5`,
the walker returns the floor and leaves the state unchanged. -/
theorem c5_walker_gate_witness :
    (maskId 0 < (set_priority_min (initState [⟨"t0", "c", false⟩] (Prio.fin 0) [])
        (some 0) (Prio.fin 7)).index_map.length ∧
      maskId 0 ∉ ([] : List ℕ)) ∧
    walk (fun _ => none) 1
        (set_priority_min (initState [⟨"t0", "c", false⟩] (Prio.fin 0) [])
          (some 0) (Prio.fin 7)) [] (some 0) "" "y\\" "c"
        ⟨true, false, false, false, some (Prio.fin 5), Prio.posInf⟩ =
      (Prio.fin 7,
        set_priority_min (initState [⟨"t0", "c", false⟩] (Prio.fin 0) [])
          (some 0) (Prio.fin 7)) := by
  refine ⟨⟨by decide, by decide⟩, ?_⟩
  have h := (c5_walker_gate (fun _ => none) 0
    (set_priority_min (initState [⟨"t0", "c", false⟩] (Prio.fin 0) [])
      (some 0) (Prio.fin 7)) [] 0 "" "y\\" "c"
    ⟨true, false, false, false, some (Prio.fin 5), Prio.posInf⟩ (Prio.fin 5)
    (by decide) (by decide) (by decide) rfl rfl).1 (Or.inl (by decide))
  have hfloor : get_priority_min
      (set_priority_min (initState [⟨"t0", "c", false⟩] (Prio.fin 0) [])
        (some 0) (Prio.fin 7)) (some (maskId 0)) = Prio.fin 7 := by decide
  rw [h, hfloor]

/-! Lemmas about `initState`. -/

section InitLemmas

variable {κ α β : Type} [DecidableEq κ]

theorem dGet_foldl_dInsert_not_mem (f : (κ × β) → α) (l : List (κ × β))
    (m : List (κ × α)) (j : κ) (h : j ∉ l.map Prod.fst) :
    dGet (l.foldl (fun acc p => dInsert acc p.1 (f p)) m) j = dGet m j := by
  induction l generalizing m with
  | nil => rfl
  | cons hd t ih =>
    simp only [List.map_cons, List.mem_cons, not_or] at h
    simp only [List.foldl_cons]
    rw [ih _ h.2]
    exact dGet_dInsert_ne _ _ _ _ (fun he => h.1 he.symm)

theorem dGet_foldl_dInsert_mem (f : (κ × β) → α) (l : List (κ × β))
    (m : List (κ × α)) (j : κ) (x : β)
    (hnd : (l.map Prod.fst).Nodup) (hmem : (j, x) ∈ l) :
    dGet (l.foldl (fun acc p => dInsert acc p.1 (f p)) m) j = some (f (j, x)) := by
  induction l generalizing m with
  | nil => simp at hmem
  | cons hd t ih =>
    obtain ⟨k, v⟩ := hd
    simp only [List.map_cons, List.nodup_cons] at hnd
    rcases List.mem_cons.mp hmem with h1 | h1
    · have hk : k = j := (congrArg Prod.fst h1).symm
      have hv : v = x := (congrArg Prod.snd h1).symm
      subst hk; subst hv
      simp only [List.foldl_cons]
      have hnot : k ∉ t.map Prod.fst := hnd.1
      rw [dGet_foldl_dInsert_not_mem f t _ _ hnot, dGet_dInsert_self]
    · have hk : k ≠ j := by
        rintro rfl
        exact hnd.1 (List.mem_map.mpr ⟨(k, x), h1, rfl⟩)
      simp only [List.foldl_cons]
      exact ih _ hnd.2 h1

end InitLemmas

/-- The init fold touches only the four dict fields. -/
theorem initStep_foldl_proj (l : List (ℕ × TagRef)) (A : HState) :
    (l.foldl initStep A).index_map = A.index_map ∧
    (l.foldl initStep A).def_priority = A.def_priority ∧
    (l.foldl initStep A).root_dir_pfx = A.root_dir_pfx ∧
    (l.foldl initStep A).perm_suffixed = A.perm_suffixed := by
  induction l generalizing A with
  | nil => exact ⟨rfl, rfl, rfl, rfl⟩
  | cons hd t ih => exact ih (initStep A hd)

theorem initState_index_map (arr : List TagRef) (dp : Prio) (perms : List String) :
    (initState arr dp perms).index_map = arr :=
  (initStep_foldl_proj _ _).1

theorem initState_def_priority (arr : List TagRef) (dp : Prio) (perms : List String) :
    (initState arr dp perms).def_priority = dp :=
  (initStep_foldl_proj _ _).2.1

theorem initStep_foldl_path_map (l : List (ℕ × TagRef)) (A : HState) :
    (l.foldl initStep A).path_map =
      l.foldl (fun m p => dInsert m (lowerS (p.2.path ++ "." ++ p.2.class1)) p.1) A.path_map := by
  induction l generalizing A with
  | nil => rfl
  | cons hd t ih => exact ih (initStep A hd)

theorem initStep_foldl_overwritables (l : List (ℕ × TagRef)) (A : HState) :
    (l.foldl initStep A).overwritables =
      l.foldl (fun m p => dInsert m p.1 (!p.2.indexed)) A.overwritables := by
  induction l generalizing A with
  | nil => rfl
  | cons hd t ih => exact ih (initStep A hd)

theorem initStep_foldl_priorities (l : List (ℕ × TagRef)) (A : HState) :
    (l.foldl initStep A).priorities =
      l.foldl (fun m p => dInsert m p.1
        (if p.2.indexed then Prio.posInf else A.def_priority)) A.priorities := by
  induction l generalizing A with
  | nil => rfl
  | cons hd t ih =>
    simp only [List.foldl_cons]
    rw [ih (initStep A hd)]
    rfl

theorem initStep_foldl_priority_mins (l : List (ℕ × TagRef)) (A : HState) :
    (l.foldl initStep A).priority_mins =
      l.foldl (fun m p => dInsert m p.1
        (if p.2.indexed then Prio.posInf else A.def_priority)) A.priority_mins := by
  induction l generalizing A with
  | nil => rfl
  | cons hd t ih =>
    simp only [List.foldl_cons]
    rw [ih (initStep A hd)]
    rfl

theorem initState_overwritables_dGet (arr : List TagRef) (dp : Prio)
    (perms : List String) (j : ℕ) (r : TagRef) (h : arr[j]? = some r) :
    dGet (initState arr dp perms).overwritables j = some (!r.indexed) := by
  unfold initState
  rw [initStep_foldl_overwritables]
  exact dGet_foldl_dInsert_mem _ _ _ _ r
    (by rw [List.enum_map_fst]; exact List.nodup_range _)
    (List.mem_enum_iff_getElem?.mpr h)

theorem initState_priorities_dGet (arr : List TagRef) (dp : Prio)
    (perms : List String) (j : ℕ) (r : TagRef) (h : arr[j]? = some r) :
    dGet (initState arr dp perms).priorities j =
      some (if r.indexed then Prio.posInf else dp) := by
  unfold initState
  rw [initStep_foldl_priorities]
  exact dGet_foldl_dInsert_mem
    (fun p => if p.2.indexed then Prio.posInf else dp) _ _ _ r
    (by rw [List.enum_map_fst]; exact List.nodup_range _)
    (List.mem_enum_iff_getElem?.mpr h)

/-! State characterization of the path-authority mutators. -/

/-- `set_path` only rewrites `path_map` and the renamed entry's `path`:
every other field — the priority tables in particular — and every entry's
class and pinned flag are untouched, and the index length is preserved. -/
theorem maskId_maskId (i : ℕ) : maskId (maskId i) = maskId i := by
  unfold maskId
  omega

theorem maskId_lt (i : ℕ) : maskId i < 65536 := Nat.mod_lt _ (by omega)

/-- The fields of the state `set_path` commits, together with the shape of
the committed name (a `resolvePathName` output plus the class extension) and
the guarantee the `KeyError` guard enforced on the inserted key. -/
theorem set_path_commit_cases {st : HState} {idx : Option ℕ} {p0 : String} {u r : Bool}
    {st2 : HState} {np : Option String}
    (h : set_path st idx p0 u r = Except.ok (st2, np)) :
    st2 = st ∨
    ∃ i0 tag_ref p3 newKey, idx = some i0 ∧
      get_index_ref st (some (maskId i0)) = some tag_ref ∧
      (∃ p2 can, p3 = resolvePathName st (maskId i0) p2
          ("." ++ lowerS tag_ref.class1) can u ∧ LowerFixed p2) ∧
      newKey = p3 ++ ("." ++ lowerS tag_ref.class1) ∧
      (dGet st.path_map newKey = none ∨
        dGet st.path_map newKey = some (maskId i0)) ∧
      st2 = { st with
        path_map := dInsert (dPop st.path_map (lowerS tag_ref.path ++ ("." ++ lowerS tag_ref.class1))) newKey (maskId i0),
        index_map := st.index_map.set (maskId i0) { tag_ref with path := p3 } } := by
  unfold set_path at h
  split at h
  · left
    exact (congrArg Prod.fst (Except.ok.inj h)).symm
  · next i0 =>
    dsimp only at h
    split at h
    · left
      exact (congrArg Prod.fst (Except.ok.inj h)).symm
    · next tag_ref heq =>
      split at h
      · next j hget =>
        split at h
        · exact absurd h (by simp)
        · next hc =>
          right
          refine ⟨i0, tag_ref, _, _, rfl, heq,
            ⟨_, _, rfl, lowerFixed_lowerS _⟩, rfl, ?_, (congrArg Prod.fst (Except.ok.inj h)).symm⟩
          right
          rw [hget]
          have : j = maskId i0 := by
            by_contra hne
            exact hc hne
          rw [this]
      · next hget =>
        right
        exact ⟨i0, tag_ref, _, _, rfl, heq,
          ⟨_, _, rfl, lowerFixed_lowerS _⟩, rfl, Or.inl hget,
          (congrArg Prod.fst (Except.ok.inj h)).symm⟩

/-- `set_path` only rewrites `path_map` and the renamed entry's `path`:
every other field — the priority tables in particular — and every entry's
class and pinned flag are untouched, and the index length is preserved. -/
theorem set_path_state {st : HState} {idx : Option ℕ} {p0 : String} {u r : Bool}
    {st2 : HState} {np : Option String}
    (h : set_path st idx p0 u r = Except.ok (st2, np)) :
    st2.overwritables = st.overwritables ∧
    st2.priorities = st.priorities ∧
    st2.priority_mins = st.priority_mins ∧
    st2.def_priority = st.def_priority ∧
    st2.root_dir_pfx = st.root_dir_pfx ∧
    st2.perm_suffixed = st.perm_suffixed ∧
    st2.index_map.length = st.index_map.length ∧
    (∀ (j : ℕ) (ref2 : TagRef), st2.index_map[j]? = some ref2 →
      ∃ ref : TagRef, st.index_map[j]? = some ref ∧
        ref2.class1 = ref.class1 ∧ ref2.indexed = ref.indexed) := by
  rcases set_path_commit_cases h with rfl | ⟨i0, tag_ref, p3, newKey, rfl, heq, _, _, _, rfl⟩
  · refine ⟨rfl, rfl, rfl, rfl, rfl, rfl, rfl, ?_⟩
    intro j ref2 hj
    exact ⟨ref2, hj, rfl, rfl⟩
  · refine ⟨rfl, rfl, rfl, rfl, rfl, rfl, by simp, ?_⟩
    intro j ref2 hj
    by_cases hji : maskId i0 = j
    · subst hji
      rw [List.getElem?_set_self'] at hj
      obtain ⟨ref, href, hv⟩ := Option.map_eq_some'.mp hj
      have h2 : st.index_map[maskId i0]? = some tag_ref := by
        simpa [get_index_ref, maskId_maskId] using heq
      rw [href] at h2
      obtain rfl := Option.some.inj h2
      exact ⟨ref, href, by simp [← hv, Function.const], by simp [← hv, Function.const]⟩
    · rw [List.getElem?_set_ne hji] at hj
      exact ⟨ref2, hj, rfl, rfl⟩

/-- `set_path_by_priority` only touches the state through `set_path` plus one
`set_priority`: the overwritable table, the priority floors and every entry's
class and pinned flag survive, and `priorities` changes at most at the
masked target identity. -/
theorem spbp_state {st : HState} {idx : Option ℕ} {p0 : String}
    {prio : Option Prio} {ov : Bool} {res : Prio} {st2 : HState}
    (h : set_path_by_priority st idx p0 prio ov = Except.ok (res, st2)) :
    st2.overwritables = st.overwritables ∧
    st2.def_priority = st.def_priority ∧
    st2.priority_mins = st.priority_mins ∧
    st2.index_map.length = st.index_map.length ∧
    (∀ (j : ℕ) (ref2 : TagRef), st2.index_map[j]? = some ref2 →
      ∃ ref : TagRef, st.index_map[j]? = some ref ∧
        ref2.class1 = ref.class1 ∧ ref2.indexed = ref.indexed) ∧
    (st2.priorities = st.priorities ∨
      ∃ i p, idx = some i ∧ st2.priorities = dInsert st.priorities (maskId i) p) := by
  unfold set_path_by_priority at h
  split at h
  · obtain rfl : st = st2 := congrArg Prod.snd (Except.ok.inj h)
    exact ⟨rfl, rfl, rfl, rfl, fun j ref2 hj => ⟨ref2, hj, rfl, rfl⟩, Or.inl rfl⟩
  · next ref0 href0 =>
    have hidx : ∃ i, idx = some i := by
      cases idx with
      | none => simp [get_index_ref] at href0
      | some i => exact ⟨i, rfl⟩
    obtain ⟨i, rfl⟩ := hidx
    dsimp only at h
    split at h
    · obtain rfl : st = st2 := congrArg Prod.snd (Except.ok.inj h)
      exact ⟨rfl, rfl, rfl, rfl, fun j ref2 hj => ⟨ref2, hj, rfl, rfl⟩, Or.inl rfl⟩
    · split at h
      · exact absurd h (by simp)
      · next st1 np heq =>
        obtain rfl : set_priority st1 (some i) (prio.getD st.def_priority) = st2 :=
          congrArg Prod.snd (Except.ok.inj h)
        obtain ⟨hov, hpr, hmin, hdp, _, _, hlen, hent⟩ := set_path_state heq
        unfold set_priority
        dsimp only
        split
        · exact ⟨hov, hdp, hmin, hlen, hent, Or.inr ⟨i, _, rfl, by rw [hpr]⟩⟩
        · exact ⟨hov, hdp, hmin, hlen, hent, Or.inl hpr⟩

/-- The overwritable-table invariant: a pinned (indexed) entry is recorded as
not overwritable. -/
def OvInv (st : HState) : Prop :=
  ∀ (j : ℕ) (ref : TagRef), st.index_map[j]? = some ref → ref.indexed = true →
    dGet st.overwritables j = some false

theorem ovInv_init (arr : List TagRef) (dp : Prio) (perms : List String) :
    OvInv (initState arr dp perms) := by
  intro j ref hj hpin
  rw [initState_index_map] at hj
  rw [initState_overwritables_dGet arr dp perms j ref hj, hpin]
  rfl

theorem ovInv_applyOp {st : HState} (h : OvInv st) (op : PAOp) :
    OvInv (applyOp st op) := by
  have key : ∀ st2 : HState, st2.overwritables = st.overwritables →
      (∀ (j : ℕ) (ref2 : TagRef), st2.index_map[j]? = some ref2 →
        ∃ ref : TagRef, st.index_map[j]? = some ref ∧
          ref2.class1 = ref.class1 ∧ ref2.indexed = ref.indexed) →
      OvInv st2 := by
    intro st2 hov hent j ref2 hj hpin
    obtain ⟨ref, href, _, hind⟩ := hent j ref2 hj
    rw [hov]
    exact h j ref href (by rw [← hind, hpin])
  cases op with
  | setPath i p u r =>
    dsimp only [applyOp]
    split
    · next x heq =>
      obtain ⟨st2, np⟩ := x
      obtain ⟨hov, _, _, _, _, _, _, hent⟩ := set_path_state heq
      exact key st2 hov hent
    · exact h
  | setPathByPriority i p pr ovr =>
    dsimp only [applyOp]
    split
    · next x heq =>
      obtain ⟨res, st2⟩ := x
      obtain ⟨hov, _, _, _, hent, _⟩ := spbp_state heq
      exact key st2 hov hent
    · exact h

theorem runOps_ovInv : ∀ (ops : List PAOp) (st0 : HState), OvInv st0 → OvInv (runOps st0 ops) := by
  intro ops
  induction ops with
  | nil => exact fun st0 h => h
  | cons op rest ih => exact fun st0 h => ih (applyOp st0 op) (ovInv_applyOp h op)

theorem reachable_ovInv {arr : List TagRef} {dp : Prio} {perms : List String}
    {st : HState} (h : Reachable arr dp perms st) : OvInv st := by
  obtain ⟨ops, rfl⟩ := h
  exact runOps_ovInv ops _ (ovInv_init arr dp perms)

/-- C3: pinned-entry protection is absolute and silent.  In every state the
path authority can reach (initial construction followed by any sequence of
calls), a pinned (indexed) tag is never overwritable, so for every candidate
path, every priority — the `+INF` sentinel and the absent default included —
and both values of the override flag, `set_path_by_priority` returns the
current priority, changes nothing, and raises nothing. -/
theorem c3_pinned_protection (arr : List TagRef) (dp : Prio) (perms : List String)
    (st : HState) (hr : Reachable arr dp perms st)
    (i : ℕ) (ref : TagRef) (href : get_index_ref st (some i) = some ref)
    (hpin : ref.indexed = true)
    (path : String) (prio : Option Prio) (ov : Bool) :
    set_path_by_priority st (some i) path prio ov =
      Except.ok (get_priority st (some i), st) := by
  have hov : dGet st.overwritables (maskId i) = some false :=
    reachable_ovInv hr (maskId i) ref (by simpa [get_index_ref] using href) hpin
  have hgo : get_overwritable st (some i) = false := by
    unfold get_overwritable
    dsimp only
    rw [hov]
    rfl
  have hw : get_will_overwrite st (some i)
      (some (prio.getD st.def_priority)) ov = some false := by
    unfold get_will_overwrite
    dsimp only
    rw [if_pos hgo]
  unfold set_path_by_priority
  rw [href]
  dsimp only
  rw [hw]
  rfl

/-- Witness for C3: a freshly constructed authority with one pinned tag at
`x\a`; a proposal at the `+INF` sentinel with override still changes
nothing. -/
theorem c3_pinned_protection_witness :
    Reachable [⟨"x\\a", "weap", true⟩] (Prio.fin 0) []
        (initState [⟨"x\\a", "weap", true⟩] (Prio.fin 0) []) ∧
      set_path_by_priority (initState [⟨"x\\a", "weap", true⟩] (Prio.fin 0) [])
          (some 0) "y\\b" (some Prio.posInf) true =
        Except.ok (Prio.posInf, initState [⟨"x\\a", "weap", true⟩] (Prio.fin 0) []) := by
  refine ⟨⟨[], rfl⟩, ?_⟩
  have h := c3_pinned_protection [⟨"x\\a", "weap", true⟩] (Prio.fin 0) []
    (initState [⟨"x\\a", "weap", true⟩] (Prio.fin 0) []) ⟨[], rfl⟩ 0
    ⟨"x\\a", "weap", true⟩ (by decide) rfl "y\\b" (some Prio.posInf) true
  rw [h]
  have h2 : get_priority (initState [⟨"x\\a", "weap", true⟩] (Prio.fin 0) [])
      (some 0) = Prio.posInf := by decide
  rw [h2]

/-! The unique-name probe always finds a free candidate: decimal renderings
are injective, so the `coll.length + 2` candidate keys are pairwise distinct
and cannot all be keys of `coll`. -/

/-- The numeric value of a decimal digit character. -/
def digitVal (c : Char) : ℕ := c.toNat - 48

/-- Decode a digit string back to the number. -/
def decodeDigits (l : List Char) : ℕ := l.foldl (fun a c => a * 10 + digitVal c) 0

theorem digitVal_digitChar {n : ℕ} (h : n < 10) : digitVal (Nat.digitChar n) = n := by
  interval_cases n <;> decide

theorem decodeDigits_append_one (xs : List Char) (c : Char) :
    decodeDigits (xs ++ [c]) = decodeDigits xs * 10 + digitVal c := by
  unfold decodeDigits
  rw [List.foldl_append]
  rfl

theorem decode_natDigitsAux : ∀ (f n : ℕ), n < f →
    decodeDigits (natDigitsAux f n) = n := by
  intro f
  induction f with
  | zero => omega
  | succ f ih =>
    intro n hn
    unfold natDigitsAux
    by_cases h10 : n < 10
    · rw [if_pos h10]
      have : decodeDigits [Nat.digitChar n] = digitVal (Nat.digitChar n) := by
        unfold decodeDigits
        simp
      rw [this, digitVal_digitChar h10]
    · rw [if_neg h10]
      rw [decodeDigits_append_one, ih (n / 10) (by omega),
        digitVal_digitChar (Nat.mod_lt _ (by omega))]
      omega

theorem natRepr_inj {a b : ℕ} (h : natRepr a = natRepr b) : a = b := by
  have hd : natDigitsAux (a + 1) a = natDigitsAux (b + 1) b := congrArg String.data h
  have ha := decode_natDigitsAux (a + 1) a (by omega)
  have hb := decode_natDigitsAux (b + 1) b (by omega)
  rw [hd, hb] at ha
  omega

theorem strEmpty_append (s : String) : "" ++ s = s := rfl

theorem strAppend_assoc (a b c : String) : a ++ b ++ c = a ++ (b ++ c) := by
  apply string_eq_of_data
  simp [String.data_append, List.append_assoc]

theorem natDigitsAux_ne_nil (f n : ℕ) (h : n < f) : natDigitsAux f n ≠ [] := by
  cases f with
  | zero => omega
  | succ f =>
    unfold natDigitsAux
    by_cases h10 : n < 10
    · simp [h10]
    · simp [h10]

theorem gunCand_key_inj (name suffix : String) {i j : ℕ} (hij : i ≠ j) :
    gunCand name i ++ suffix ≠ gunCand name j ++ suffix := by
  intro h
  have hd := congrArg String.data h
  simp only [String.data_append] at hd
  unfold gunCand at hd
  by_cases hi : i = 0
  · subst hi
    have hj0 : j ≠ 0 := fun hh => hij hh.symm
    rw [if_pos rfl, if_neg hj0] at hd
    simp only [String.data_append] at hd
    have := congrArg List.length hd
    simp only [List.length_append] at this
    have hne := natDigitsAux_ne_nil (j + 1) j (by omega)
    have : (natRepr j).data.length > 0 := by
      cases hnr : (natRepr j).data with
      | nil => exact absurd hnr hne
      | cons c t => simp
    omega
  · by_cases hj : j = 0
    · subst hj
      rw [if_pos rfl, if_neg hi] at hd
      simp only [String.data_append] at hd
      have := congrArg List.length hd
      simp only [List.length_append] at this
      have hne := natDigitsAux_ne_nil (i + 1) i (by omega)
      have : (natRepr i).data.length > 0 := by
        cases hnr : (natRepr i).data with
        | nil => exact absurd hnr hne
        | cons c t => simp
      omega
    · rw [if_neg hi, if_neg hj] at hd
      simp only [String.data_append, List.append_assoc] at hd
      have h2 := List.append_cancel_left hd
      have h3 : (natRepr i).data ++ suffix.data = (natRepr j).data ++ suffix.data := by
        simpa using h2
      have h4 := List.append_cancel_right h3
      exact hij (natRepr_inj (string_eq_of_data h4))

/-- Pigeonhole: among `coll.length + 2` pairwise-distinct candidate keys some
key is absent from `coll`. -/
theorem exists_free_cand {α : Type} (coll : List (String × α)) (name suffix : String) :
    ∃ k < coll.length + 2, dGet coll (gunCand name k ++ suffix) = none := by
  by_contra hnone
  push_neg at hnone
  have hmem : ∀ k < coll.length + 2, (gunCand name k ++ suffix) ∈ dKeys coll := by
    intro k hk
    have := hnone k hk
    by_contra hnm
    exact this (dGet_eq_none_iff.mpr hnm)
  have hinj : ((List.range (coll.length + 2)).map
      (fun k => gunCand name k ++ suffix)).Nodup := by
    refine List.Nodup.map_on ?_ (List.nodup_range _)
    intro x _ y _ hxy
    by_contra hne
    exact gunCand_key_inj name suffix hne hxy
  have hsub : ((List.range (coll.length + 2)).map
      (fun k => gunCand name k ++ suffix)).toFinset ⊆ (dKeys coll).toFinset := by
    intro x hx
    rw [List.mem_toFinset] at hx ⊢
    obtain ⟨k, hk, rfl⟩ := List.mem_map.mp hx
    exact hmem k (List.mem_range.mp hk)
  have hcard1 : ((List.range (coll.length + 2)).map
      (fun k => gunCand name k ++ suffix)).toFinset.card = coll.length + 2 := by
    rw [List.toFinset_card_of_nodup hinj]
    simp
  have hcard2 : (dKeys coll).toFinset.card ≤ coll.length := by
    calc (dKeys coll).toFinset.card ≤ (dKeys coll).length := (dKeys coll).toFinset_card_le
    _ = coll.length := by simp [dKeys]
  have := Finset.card_le_card hsub
  omega

theorem gunGo_of_exists {α : Type} (coll : List (String × α)) (name suffix : String)
    (isIg : α → Bool) : ∀ (f i : ℕ),
    (∃ k < f, gunFree coll suffix isIg (gunCand name (i + k)) = true) →
    gunFree coll suffix isIg (gunGo coll name suffix isIg f i) = true := by
  intro f
  induction f with
  | zero => intro i h; obtain ⟨k, hk, _⟩ := h; omega
  | succ f ih =>
    intro i h
    unfold gunGo
    by_cases hfr : gunFree coll suffix isIg (gunCand name i) = true
    · rw [if_pos hfr]
      exact hfr
    · rw [if_neg hfr]
      obtain ⟨k, hk, hfree⟩ := h
      cases k with
      | zero => exact absurd (by simpa using hfree) hfr
      | succ k2 =>
        exact ih (i + 1) ⟨k2, by omega, by rw [show i + 1 + k2 = i + (k2 + 1) by omega]; exact hfree⟩

/-- The probe of `get_unique_name` always ends on a free candidate. -/
theorem get_unique_name_free {α : Type} (coll : List (String × α)) (name suffix : String)
    (isIg : α → Bool) :
    gunFree coll suffix isIg (get_unique_name coll name suffix isIg) = true := by
  obtain ⟨k, hk, hnone⟩ := exists_free_cand coll name suffix
  refine gunGo_of_exists coll name suffix isIg (coll.length + 2) 0 ⟨k, hk, ?_⟩
  unfold gunFree
  rw [show 0 + k = k by omega, hnone]

theorem ite_false_bool {α : Sort u_1} (a b : α) : (if false = true then a else b) = b := rfl

theorem ite_true_bool {α : Sort u_1} (a b : α) : (if true = true then a else b) = a := rfl

/-- With `ensure_unique_name` on, the name `resolvePathName` settles on never
belongs to a different identity — this is why the `KeyError` guard of
`set_path` cannot fire on the `set_path_by_priority` path. -/
theorem resolvePathName_safe (st : HState) (i : ℕ) (p2 ext : String) (can : Bool) :
    dGet st.path_map (resolvePathName st i p2 ext can true ++ ext) = none ∨
    dGet st.path_map (resolvePathName st i p2 ext can true ++ ext) = some i := by
  unfold resolvePathName
  dsimp only
  split
  · have hfree := get_unique_name_free st.path_map
      (pwJoinDot (stripDisambig (pwParts p2) can))
      ((if can = true then "" else "_") ++ ext) (fun j => decide (j = i))
    unfold gunFree at hfree
    cases can with
    | true =>
      simp only [ite_true_bool, strEmpty_append, if_true] at hfree ⊢
      split at hfree
      · next hget => exact Or.inl hget
      · next j hget =>
        right
        rw [hget]
        simp at hfree
        rw [hfree]
    | false =>
      simp only [ite_false_bool, if_false] at hfree ⊢
      rw [strAppend_assoc]
      split at hfree
      · next hget => exact Or.inl hget
      · next j hget =>
        right
        rw [hget]
        simp at hfree
        rw [hfree]
  · next hnot =>
    have hu : (match dGet st.path_map (p2 ++ ext) with
        | none => false
        | some j => decide (j ≠ i)) = false := by
      by_contra hx
      apply hnot
      simp only [Bool.or_eq_true, Bool.and_eq_true]
      right
      exact ⟨trivial, by revert hx; cases dGet st.path_map (p2 ++ ext) <;> simp⟩
    revert hu
    cases hget : dGet st.path_map (p2 ++ ext) with
    | none => exact fun _ => Or.inl rfl
    | some j =>
      intro hu
      right
      simp at hu
      rw [hu]

/-- `set_path` with `ensure_unique_name` (the default, and what
`set_path_by_priority` passes) never raises: the regenerated name is free, so
the `KeyError` guard cannot fire. -/
theorem set_path_ok (st : HState) (idx : Option ℕ) (p0 : String) (r : Bool) :
    ∃ x, set_path st idx p0 true r = Except.ok x := by
  unfold set_path
  cases idx with
  | none => exact ⟨(st, none), rfl⟩
  | some i0 =>
    dsimp only
    cases href : get_index_ref st (some (maskId i0)) with
    | none =>
      simp only [href]
      exact ⟨(st, none), rfl⟩
    | some tag_ref =>
      simp only [href]
      split
      · next j hget =>
        by_cases hj : j = maskId i0
        · rw [if_neg (by simpa using hj)]
          exact ⟨_, rfl⟩
        · exfalso
          rcases resolvePathName_safe st (maskId i0) _ _ _ with hs | hs
          · rw [hget] at hs
            exact Option.noConfusion hs
          · rw [hget] at hs
            exact hj (Option.some.inj hs)
      · exact ⟨_, rfl⟩

/-- `set_path_by_priority` never raises. -/
theorem set_path_by_priority_ok (st : HState) (idx : Option ℕ) (p0 : String)
    (prio : Option Prio) (ov : Bool) :
    ∃ x, set_path_by_priority st idx p0 prio ov = Except.ok x := by
  unfold set_path_by_priority
  cases href : get_index_ref st idx with
  | none => exact ⟨_, rfl⟩
  | some ref =>
    dsimp only
    split
    · exact ⟨_, rfl⟩
    · obtain ⟨⟨st1, np⟩, hok⟩ := set_path_ok st idx p0 true
      rw [hok]
      exact ⟨_, rfl⟩

/-- `get_will_overwrite` on a resolvable identity decides exactly the
rejection disjunction of the spec. -/
theorem get_will_overwrite_eq (st : HState) (i : ℕ) (ref : TagRef)
    (href : get_index_ref st (some i) = some ref) (p : Prio) (ov : Bool) :
    get_will_overwrite st (some i) (some p) ov =
      some (decide (¬ (get_overwritable st (some i) = false ∨
        Prio.blt p (get_priority st (some i)) = true ∨
        ((get_priority st (some i) = p ∨ ref.indexed = true) ∧ ov = false)))) := by
  unfold get_will_overwrite
  dsimp only [Option.getD_some]
  by_cases h1 : get_overwritable st (some i) = false
  · rw [if_pos h1]
    simp [h1]
  · rw [if_neg h1]
    by_cases h2 : Prio.blt p (get_priority st (some i)) = true
    · rw [if_pos h2]
      simp [h2]
    · rw [if_neg h2, href]
      dsimp only
      by_cases h3 : (get_priority st (some i) = p ∨ ref.indexed = true) ∧ ov = false
      · rw [if_pos h3]
        simp [h1, h2, h3]
      · rw [if_neg h3]
        simp [h1, h2, h3]

/-- C2: for every valid identity, candidate path, priority `p` and override
flag, `set_path_by_priority` leaves the state untouched and returns the
current priority exactly when the tag is not overwritable, or the current
priority is strictly greater than `p`, or (the current priority equals `p`
or the tag is pinned) and override is false; in every other case it commits
the candidate through the uniqueness procedure (`set_path`, root-prefixed),
sets the tag's priority to `p`, and returns `p`. -/
theorem c2_set_path_by_priority (st : HState) (i : ℕ) (ref : TagRef)
    (href : get_index_ref st (some i) = some ref)
    (path : String) (p : Prio) (ov : Bool) :
    ((get_overwritable st (some i) = false ∨
        Prio.blt p (get_priority st (some i)) = true ∨
        ((get_priority st (some i) = p ∨ ref.indexed = true) ∧ ov = false)) →
      set_path_by_priority st (some i) path (some p) ov =
        Except.ok (get_priority st (some i), st)) ∧
    (¬ (get_overwritable st (some i) = false ∨
        Prio.blt p (get_priority st (some i)) = true ∨
        ((get_priority st (some i) = p ∨ ref.indexed = true) ∧ ov = false)) →
      ∃ st1 np, set_path st (some i) path true true = Except.ok (st1, np) ∧
        set_path_by_priority st (some i) path (some p) ov =
          Except.ok (p, set_priority st1 (some i) p)) := by
  constructor
  · intro hrej
    unfold set_path_by_priority
    rw [href]
    dsimp only [Option.getD_some]
    rw [get_will_overwrite_eq st i ref href p ov]
    rw [if_pos (by simp [hrej])]
  · intro hgo
    obtain ⟨⟨st1, np⟩, hok⟩ := set_path_ok st (some i) path true
    refine ⟨st1, np, hok, ?_⟩
    unfold set_path_by_priority
    rw [href]
    dsimp only [Option.getD_some]
    rw [get_will_overwrite_eq st i ref href p ov]
    rw [if_neg (by simp [hgo])]
    rw [hok]

/-- Witness for C2, accepting branch: unpinned tag at priority `0`, proposal
at `5` commits the new path and stores priority `5`. -/
theorem c2_set_path_by_priority_witness :
    (get_index_ref (initState [⟨"x\\a", "weap", false⟩] (Prio.fin 0) []) (some 0) =
        some ⟨"x\\a", "weap", false⟩ ∧
      ¬ (get_overwritable (initState [⟨"x\\a", "weap", false⟩] (Prio.fin 0) [])
            (some 0) = false ∨
          Prio.blt (Prio.fin 5) (get_priority (initState [⟨"x\\a", "weap", false⟩]
            (Prio.fin 0) []) (some 0)) = true ∨
          ((get_priority (initState [⟨"x\\a", "weap", false⟩] (Prio.fin 0) [])
              (some 0) = Prio.fin 5 ∨
            (⟨"x\\a", "weap", false⟩ : TagRef).indexed = true) ∧ false = false))) ∧
    ∃ st1 np, set_path (initState [⟨"x\\a", "weap", false⟩] (Prio.fin 0) [])
        (some 0) "y\\b" true true = Except.ok (st1, np) ∧
      set_path_by_priority (initState [⟨"x\\a", "weap", false⟩] (Prio.fin 0) [])
          (some 0) "y\\b" (some (Prio.fin 5)) false =
        Except.ok (Prio.fin 5, set_priority st1 (some 0) (Prio.fin 5)) :=
  ⟨⟨by decide, by decide⟩,
    (c2_set_path_by_priority (initState [⟨"x\\a", "weap", false⟩] (Prio.fin 0) [])
      0 ⟨"x\\a", "weap", false⟩ (by decide) "y\\b" (Prio.fin 5) false).2 (by decide)⟩

/-! Runs of `set_path_by_priority` calls, for the priority-monotonicity
claim. -/

/-- The acceptance test of `set_path_by_priority`: the reference resolves and
`get_will_overwrite` agrees (extracted from the source's guard for run-level
statements). -/
def spbpAccepts (st : HState) (idx : Option ℕ) (prio : Option Prio) (ov : Bool) : Bool :=
  match get_index_ref st idx with
  | none => false
  | some _ => (get_will_overwrite st idx (some (prio.getD st.def_priority)) ov).getD false

/-- One `set_path_by_priority` call: identity, candidate path, priority,
override. -/
structure SpbpCall where
  idx : Option ℕ
  path : String
  prio : Option Prio
  override : Bool

/-- The call as a path-authority operation. -/
def spbpOp (c : SpbpCall) : PAOp :=
  PAOp.setPathByPriority c.idx c.path c.prio c.override

/-- Run a sequence of `set_path_by_priority` calls. -/
def runSpbp (st : HState) (calls : List SpbpCall) : HState :=
  calls.foldl (fun s c => applyOp s (spbpOp c)) st

/-- Does the call address masked identity `t`? -/
def targets (c : SpbpCall) (t : ℕ) : Bool :=
  match c.idx with
  | some i => decide (maskId i = maskId t)
  | none => false

/-- The resolved priorities of the proposals for masked identity `t` that the
run accepts, in order. -/
def acceptedPrios (t : ℕ) : HState → List SpbpCall → List Prio
  | _, [] => []
  | st, c :: rest =>
    if targets c t && spbpAccepts st c.idx c.prio c.override then
      (c.prio.getD st.def_priority) :: acceptedPrios t (applyOp st (spbpOp c)) rest
    else acceptedPrios t (applyOp st (spbpOp c)) rest

theorem spbp_rejected_id (st : HState) (c : SpbpCall)
    (h : spbpAccepts st c.idx c.prio c.override = false) :
    applyOp st (spbpOp c) = st := by
  unfold spbpAccepts at h
  unfold applyOp spbpOp set_path_by_priority
  dsimp only
  cases href : get_index_ref st c.idx with
  | none => rfl
  | some ref =>
    rw [href] at h
    dsimp only
    rw [if_pos h]

theorem spbp_accepted_state (st : HState) (c : SpbpCall)
    (h : spbpAccepts st c.idx c.prio c.override = true) :
    ∃ i st1 np, c.idx = some i ∧
      set_path st (some i) c.path true true = Except.ok (st1, np) ∧
      maskId i < st.index_map.length ∧
      st1.priorities = st.priorities ∧
      st1.index_map.length = st.index_map.length ∧
      applyOp st (spbpOp c) =
        set_priority st1 (some i) (c.prio.getD st.def_priority) ∧
      Prio.blt (c.prio.getD st.def_priority)
        ((dGet st.priorities (maskId i)).getD Prio.negInf) = false := by
  unfold spbpAccepts at h
  cases href : get_index_ref st c.idx with
  | none => rw [href] at h; exact absurd h (by simp)
  | some ref =>
    rw [href] at h
    have hidx : ∃ i, c.idx = some i := by
      cases hc : c.idx with
      | none => rw [hc] at href; exact absurd href (by simp [get_index_ref])
      | some i => exact ⟨i, rfl⟩
    obtain ⟨i, hci⟩ := hidx
    rw [hci] at href h
    dsimp only at h
    obtain ⟨⟨st1, np⟩, hok⟩ := set_path_ok st (some i) c.path true
    have hlen : maskId i < st.index_map.length := by
      by_contra hge
      rw [get_index_ref, List.getElem?_eq_none (by omega)] at href
      exact Option.noConfusion href
    have hblt : Prio.blt (c.prio.getD st.def_priority)
        ((dGet st.priorities (maskId i)).getD Prio.negInf) = false := by
      by_contra hx
      rw [Bool.not_eq_false] at hx
      unfold get_will_overwrite at h
      dsimp only [Option.getD_some] at h
      rcases hov : get_overwritable st (some i) with _ | _
      · rw [if_pos hov] at h
        simp at h
      · rw [if_neg (by rw [hov]; simp)] at h
        rw [show Prio.blt (c.prio.getD st.def_priority)
            (get_priority st (some i)) = true from hx] at h
        simp at h
    refine ⟨i, st1, np, hci, hok, hlen, (set_path_state hok).2.1, (set_path_state hok).2.2.2.2.2.2.1, ?_, hblt⟩
    unfold applyOp spbpOp
    dsimp only
    rw [hci]
    unfold set_path_by_priority
    rw [href]
    dsimp only
    rw [if_neg (by rw [h]; simp), hok]

/-- One `set_path_by_priority` call, seen from masked identity `t`: an
accepted call addressed to `t` stores its resolved priority, which is not
below the stored one; any other call leaves `t`'s stored priority
untouched. -/
theorem spbp_step_priority (st : HState) (c : SpbpCall) (t : ℕ) :
    ((targets c t && spbpAccepts st c.idx c.prio c.override) = true →
      dGet (applyOp st (spbpOp c)).priorities (maskId t) =
        some (c.prio.getD st.def_priority) ∧
      Prio.blt (c.prio.getD st.def_priority)
        ((dGet st.priorities (maskId t)).getD Prio.negInf) = false) ∧
    ((targets c t && spbpAccepts st c.idx c.prio c.override) = false →
      dGet (applyOp st (spbpOp c)).priorities (maskId t) =
        dGet st.priorities (maskId t)) := by
  constructor
  · intro hacc
    rw [Bool.and_eq_true] at hacc
    obtain ⟨i, st1, np, hci, hok, hlen, hpr, hlen1, happ, hblt⟩ :=
      spbp_accepted_state st c hacc.2
    have hmask : maskId i = maskId t := by
      unfold targets at hacc
      rw [hci] at hacc
      exact of_decide_eq_true hacc.1
    rw [happ]
    unfold set_priority
    dsimp only
    rw [if_pos (by rw [hlen1]; omega)]
    dsimp only
    rw [hpr, hmask]
    rw [hmask] at hblt
    exact ⟨dGet_dInsert_self _ _ _, hblt⟩
  · intro hrej
    rw [Bool.and_eq_false_iff] at hrej
    rcases hrej with hrej | hrej
    · by_cases hacc : spbpAccepts st c.idx c.prio c.override = true
      · obtain ⟨i, st1, np, hci, hok, hlen, hpr, hlen1, happ, hblt⟩ :=
          spbp_accepted_state st c hacc
        have hmask : maskId i ≠ maskId t := by
          unfold targets at hrej
          rw [hci] at hrej
          exact of_decide_eq_false hrej
        rw [happ]
        unfold set_priority
        dsimp only
        split
        · dsimp only
          rw [hpr]
          exact dGet_dInsert_ne _ _ _ _ hmask
        · rw [hpr]
      · rw [spbp_rejected_id st c (by revert hacc; cases spbpAccepts st c.idx c.prio c.override <;> simp)]
    · rw [spbp_rejected_id st c hrej]

/-- C4: priority monotonicity.  Over any sequence of `set_path_by_priority`
calls, the stored priority of every tag never decreases step by step, and
after the run it equals the maximum of the initial priority and the
priorities of all accepted proposals for that tag. -/
theorem c4_priority_monotonicity (calls : List SpbpCall) (st0 : HState) (t : ℕ) :
    (∀ n : ℕ, Prio.ble (get_priority (runSpbp st0 (calls.take n)) (some t))
        (get_priority (runSpbp st0 (calls.take (n + 1))) (some t)) = true) ∧
    get_priority (runSpbp st0 calls) (some t) =
      (acceptedPrios t st0 calls).foldl Prio.pmax (get_priority st0 (some t)) := by
  have hstep : ∀ (st : HState) (c : SpbpCall),
      Prio.ble (get_priority st (some t))
        (get_priority (applyOp st (spbpOp c)) (some t)) = true := by
    intro st c
    have hs := spbp_step_priority st c t
    show (!Prio.blt (get_priority (applyOp st (spbpOp c)) (some t))
      (get_priority st (some t))) = true
    by_cases hacc : (targets c t && spbpAccepts st c.idx c.prio c.override) = true
    · obtain ⟨hset, hblt⟩ := hs.1 hacc
      unfold get_priority
      dsimp only
      rw [hset]
      simpa using hblt
    · have := hs.2 (by revert hacc; cases targets c t && spbpAccepts st c.idx c.prio c.override <;> simp)
      unfold get_priority
      dsimp only
      rw [this]
      simp [Prio.blt_irrefl]
  constructor
  · intro n
    rcases hcn : calls[n]? with _ | c
    · have : calls.take (n + 1) = calls.take n := by
        rw [List.take_succ, hcn]
        simp
      rw [this]
      simp [Prio.ble, Prio.blt_irrefl]
    · have : calls.take (n + 1) = calls.take n ++ [c] := by
        rw [List.take_succ, hcn]
        rfl
      rw [this]
      unfold runSpbp
      rw [List.foldl_append]
      exact hstep _ c
  · induction calls generalizing st0 with
    | nil => rfl
    | cons c rest ih =>
      have hrun : runSpbp st0 (c :: rest) = runSpbp (applyOp st0 (spbpOp c)) rest := rfl
      rw [hrun]
      unfold acceptedPrios
      by_cases hacc : (targets c t && spbpAccepts st0 c.idx c.prio c.override) = true
      · rw [if_pos hacc]
        obtain ⟨hset, hblt⟩ := (spbp_step_priority st0 c t).1 hacc
        have hp1 : get_priority (applyOp st0 (spbpOp c)) (some t) =
            c.prio.getD st0.def_priority := by
          unfold get_priority
          dsimp only
          rw [hset]
          rfl
        rw [ih (applyOp st0 (spbpOp c)), hp1]
        simp only [List.foldl_cons]
        have : Prio.pmax (get_priority st0 (some t)) (c.prio.getD st0.def_priority) =
            c.prio.getD st0.def_priority :=
          Prio.pmax_eq_right hblt
        rw [this]
      · rw [if_neg hacc]
        have hsame := (spbp_step_priority st0 c t).2
          (by revert hacc; cases targets c t && spbpAccepts st0 c.idx c.prio c.override <;> simp)
        have hp1 : get_priority (applyOp st0 (spbpOp c)) (some t) =
            get_priority st0 (some t) := by
          unfold get_priority
          dsimp only
          rw [hsame]
        rw [ih (applyOp st0 (spbpOp c)), hp1]

/-! Character provenance of the names `set_path` builds, leading to the fact
that every committed path is lowercase-fixed. -/

theorem splitCh_chars (sep : Char) : ∀ (l piece : List Char),
    piece ∈ splitCh sep l → ∀ c ∈ piece, c ∈ l := by
  intro l
  induction l with
  | nil =>
    intro piece hp c hc
    simp only [splitCh, List.mem_singleton] at hp
    subst hp
    simp at hc
  | cons a t ih =>
    intro piece hp c hc
    unfold splitCh at hp
    dsimp only at hp
    by_cases ha : a = sep
    · rw [if_pos ha] at hp
      rcases List.mem_cons.mp hp with rfl | hp2
      · simp at hc
      · exact List.mem_cons_of_mem _ (ih piece hp2 c hc)
    · rw [if_neg ha] at hp
      rcases hcr : splitCh sep t with _ | ⟨h2, t2⟩
      · rw [hcr] at hp
        simp only [List.mem_singleton] at hp
        subst hp
        simp only [List.mem_singleton] at hc
        subst hc
        exact List.mem_cons_self _ _
      · rw [hcr] at hp
        rcases List.mem_cons.mp hp with rfl | hp2
        · rcases List.mem_cons.mp hc with rfl | hc2
          · exact List.mem_cons_self _ _
          · exact List.mem_cons_of_mem _
              (ih h2 (by rw [hcr]; exact List.mem_cons_self _ _) c hc2)
        · exact List.mem_cons_of_mem _
            (ih piece (by rw [hcr]; exact List.mem_cons_of_mem _ hp2) c hc)

theorem joinCh_chars (sep : Char) : ∀ (ls : List (List Char)) (c : Char),
    c ∈ joinCh sep ls → c = sep ∨ ∃ x ∈ ls, c ∈ x := by
  intro ls
  induction ls with
  | nil => intro c hc; simp [joinCh] at hc
  | cons x t ih =>
    intro c hc
    cases t with
    | nil =>
      right
      exact ⟨x, List.mem_cons_self _ _, by simpa [joinCh] using hc⟩
    | cons y t2 =>
      unfold joinCh at hc
      rcases List.mem_append.mp hc with h1 | h1
      · exact Or.inr ⟨x, List.mem_cons_self _ _, h1⟩
      · rcases List.mem_cons.mp h1 with rfl | h2
        · exact Or.inl rfl
        · rcases ih c h2 with h3 | ⟨z, hz, hcz⟩
          · exact Or.inl h3
          · exact Or.inr ⟨z, List.mem_cons_of_mem _ hz, hcz⟩

theorem pwParts_chars (s : String) : ∀ p ∈ pwParts s, ∀ c ∈ p.data, c ∈ s.data := by
  intro p hp c hc
  unfold pwParts at hp
  obtain ⟨l, hl, rfl⟩ := List.mem_map.mp hp
  exact splitCh_chars '\\' s.data l (List.mem_of_mem_filter hl) c hc

theorem stripDisambig_chars (pieces : List String) (can : Bool) :
    ∀ p ∈ stripDisambig pieces can, ∀ c ∈ p.data, ∃ q ∈ pieces, c ∈ q.data := by
  intro p hp c hc
  unfold stripDisambig at hp
  rcases hlast : pieces.getLast? with _ | bn
  · rw [hlast] at hp
    exact ⟨p, hp, hc⟩
  · rw [hlast] at hp
    dsimp only at hp
    rcases hrs : rsplitHash bn with _ | pr
    · rw [hrs] at hp
      exact ⟨p, hp, hc⟩
    · rw [hrs] at hp
      dsimp only at hp
      by_cases hcond : (pr.2.data.all (if can = true then isDigitC else isDigitUSC) = true)
      · rw [if_pos hcond] at hp
        rcases List.mem_append.mp hp with h1 | h1
        · exact ⟨p, List.dropLast_subset _ h1, hc⟩
        · simp only [List.mem_singleton] at h1
          subst h1
          have hbnmem : bn ∈ pieces := by
            obtain ⟨hne, hbl⟩ := List.mem_getLast?_eq_getLast (Option.mem_def.mpr hlast)
            rw [hbl]
            exact List.getLast_mem hne
          refine ⟨bn, hbnmem, ?_⟩
          unfold rsplitHash at hrs
          rcases hli : lastIdxOf '#' bn.data with _ | k
          · rw [hli] at hrs; exact Option.noConfusion hrs
          · rw [hli] at hrs
            have hpr : pr.1 = (⟨bn.data.take k⟩ : String) := by
              have h5 := Option.some.inj hrs
              rw [← h5]
            rw [hpr] at hc
            exact List.mem_of_mem_take hc
      · rw [if_neg hcond] at hp
        exact ⟨p, hp, hc⟩

theorem dot_lowerFixed : LowerFixed "." := by
  intro c hc
  rcases List.mem_singleton.mp hc with rfl
  decide

theorem backslash_lowerFixed : lowerChar '\\' = '\\' := by decide

theorem pwJoinDot_lowerFixed {pieces : List String}
    (h : ∀ p ∈ pieces, ∀ c ∈ p.data, lowerChar c = c) :
    LowerFixed (pwJoinDot pieces) := by
  unfold pwJoinDot
  split
  · exact dot_lowerFixed
  · intro c hc
    unfold pwJoin at hc
    rcases joinCh_chars '\\' (pieces.map String.data) c hc with rfl | ⟨x, hx, hcx⟩
    · exact backslash_lowerFixed
    · obtain ⟨q, hq, rfl⟩ := List.mem_map.mp hx
      exact h q hq c hcx

theorem digitChar_lowerFixed {m : ℕ} (h : m < 10) :
    lowerChar (Nat.digitChar m) = Nat.digitChar m := by
  interval_cases m <;> decide

theorem natDigitsAux_lowerFixed : ∀ (f n : ℕ), ∀ c ∈ natDigitsAux f n, lowerChar c = c := by
  intro f
  induction f with
  | zero => intro n c hc; simp [natDigitsAux] at hc
  | succ f ih =>
    intro n c hc
    unfold natDigitsAux at hc
    by_cases h10 : n < 10
    · rw [if_pos h10] at hc
      simp only [List.mem_singleton] at hc
      subst hc
      exact digitChar_lowerFixed h10
    · rw [if_neg h10] at hc
      rcases List.mem_append.mp hc with h1 | h1
      · exact ih _ c h1
      · simp only [List.mem_singleton] at h1
        subst h1
        exact digitChar_lowerFixed (Nat.mod_lt _ (by omega))

theorem natRepr_lowerFixed (n : ℕ) : LowerFixed (natRepr n) :=
  fun c hc => natDigitsAux_lowerFixed (n + 1) n c hc

theorem hash_lowerFixed : LowerFixed "#" := by
  intro c hc
  rcases List.mem_singleton.mp hc with rfl
  decide

theorem underscore_lowerFixed : LowerFixed "_" := by
  intro c hc
  rcases List.mem_singleton.mp hc with rfl
  decide

theorem gunCand_lowerFixed {name : String} (h : LowerFixed name) (i : ℕ) :
    LowerFixed (gunCand name i) := by
  unfold gunCand
  split
  · exact h
  · exact lowerFixed_append (lowerFixed_append h hash_lowerFixed) (natRepr_lowerFixed i)

theorem gunGo_isCand {α : Type} (coll : List (String × α)) (name suffix : String)
    (isIg : α → Bool) : ∀ (f i : ℕ), ∃ k, gunGo coll name suffix isIg f i = gunCand name k := by
  intro f
  induction f with
  | zero => exact fun i => ⟨i, rfl⟩
  | succ f ih =>
    intro i
    unfold gunGo
    split
    · exact ⟨i, rfl⟩
    · exact ih (i + 1)

theorem resolvePathName_lowerFixed (st : HState) (i : ℕ) (p2 ext : String)
    (can u : Bool) (h : LowerFixed p2) :
    LowerFixed (resolvePathName st i p2 ext can u) := by
  unfold resolvePathName
  dsimp only
  split
  · have hpieces : ∀ p ∈ stripDisambig (pwParts p2) can, ∀ c ∈ p.data, lowerChar c = c := by
      intro p hp c hc
      obtain ⟨q, hq, hcq⟩ := stripDisambig_chars (pwParts p2) can p hp c hc
      exact h c (pwParts_chars p2 q hq c hcq)
    have hjoin : LowerFixed (pwJoinDot (stripDisambig (pwParts p2) can)) :=
      pwJoinDot_lowerFixed hpieces
    have hbase : ∀ (sfx : String) (isg : ℕ → Bool),
        LowerFixed (get_unique_name st.path_map
          (pwJoinDot (stripDisambig (pwParts p2) can)) sfx isg) := by
      intro sfx isg
      obtain ⟨k, hk⟩ := gunGo_isCand st.path_map
        (pwJoinDot (stripDisambig (pwParts p2) can)) sfx isg (st.path_map.length + 2) 0
      unfold get_unique_name
      rw [hk]
      exact gunCand_lowerFixed hjoin k
    split
    · exact hbase _ _
    · exact lowerFixed_append (hbase _ _) underscore_lowerFixed
  · exact h

/-! The path-uniqueness invariant (C1). -/

/-- The normalized full path stored on a tag entry: the lowercase
path-plus-category-extension string. -/
def fullKey (r : TagRef) : String := lowerS (r.path ++ "." ++ r.class1)

theorem fullKey_eq (r : TagRef) :
    fullKey r = lowerS r.path ++ ("." ++ lowerS r.class1) := by
  unfold fullKey
  rw [lowerS_append, lowerS_append, strAppend_assoc]
  have hdot : lowerS "." = "." := lowerS_eq_self dot_lowerFixed
  rw [hdot]

/-- The pairwise-distinct initial normalized full paths the amended C1
assumes. -/
def KeysDistinct (arr : List TagRef) : Prop := (arr.map fullKey).Nodup

/-- The uniqueness invariant: the path map is exactly the graph of `fullKey`
over the live identities, with no duplicate keys. -/
def PInv (st : HState) : Prop :=
  (∀ p ∈ st.path_map, p.2 < st.index_map.length ∧
    ∃ r : TagRef, st.index_map[p.2]? = some r ∧ fullKey r = p.1) ∧
  (∀ (j : ℕ) (r : TagRef), st.index_map[j]? = some r →
    (fullKey r, j) ∈ st.path_map) ∧
  (dKeys st.path_map).Nodup

theorem pinv_entry_unique {st : HState} (h : PInv st) {k k2 : String} {v : ℕ}
    (h1 : (k, v) ∈ st.path_map) (h2 : (k2, v) ∈ st.path_map) : k = k2 := by
  obtain ⟨_, ⟨r1, hr1, hk1⟩⟩ := h.1 _ h1
  obtain ⟨_, ⟨r2, hr2, hk2⟩⟩ := h.1 _ h2
  rw [hr1] at hr2
  obtain rfl := Option.some.inj hr2
  have := hk1.symm.trans hk2
  simpa using this

theorem pinv_value_unique {st : HState} (h : PInv st) {k : String} {i j : ℕ}
    (h1 : (k, i) ∈ st.path_map) (h2 : (k, j) ∈ st.path_map) : i = j := by
  have g1 := dGet_of_mem_nodup h.2.2 h1
  have g2 := dGet_of_mem_nodup h.2.2 h2
  rw [g1] at g2
  exact Option.some.inj g2

theorem dInsert_eq_append {κ α : Type} [DecidableEq κ] {m : List (κ × α)} {k : κ}
    (v : α) (h : k ∉ dKeys m) : dInsert m k v = m ++ [(k, v)] := by
  induction m with
  | nil => rfl
  | cons hd t ih =>
    obtain ⟨k', v'⟩ := hd
    simp only [dKeys, List.map_cons, List.mem_cons, not_or] at h
    have hne : ¬ k' = k := fun he => h.1 he.symm
    simp only [dInsert, if_neg hne]
    rw [ih h.2]
    simp

theorem foldl_dInsert_fresh {β : Type} (keyf : β → String) (valf : β → ℕ) :
    ∀ (l : List β) (m : List (String × ℕ)),
      (∀ p ∈ l, keyf p ∉ dKeys m) → (l.map keyf).Nodup →
      l.foldl (fun acc p => dInsert acc (keyf p) (valf p)) m =
        m ++ l.map (fun p => (keyf p, valf p)) := by
  intro l
  induction l with
  | nil => intro m _ _; simp
  | cons hd t ih =>
    intro m hfresh hnd
    simp only [List.map_cons, List.nodup_cons] at hnd
    simp only [List.foldl_cons]
    rw [dInsert_eq_append (valf hd) (hfresh hd (List.mem_cons_self _ _))]
    rw [ih (m ++ [(keyf hd, valf hd)]) ?hfr hnd.2]
    · simp
    · intro p hp
      simp only [dKeys, List.map_append, List.mem_append, not_or]
      refine ⟨?_, ?_⟩
      · have := hfresh p (List.mem_cons_of_mem _ hp)
        simpa [dKeys] using this
      · simp only [List.map_cons, List.map_nil, List.mem_singleton]
        intro hkk
        exact hnd.1 (List.mem_map.mpr ⟨p, hp, hkk⟩)

/-- `set_path` preserves the uniqueness invariant (a raising call changes
nothing, so only committed states matter). -/
theorem set_path_pinv {st : HState} {idx : Option ℕ} {p0 : String} {u r : Bool}
    {st2 : HState} {np : Option String}
    (h : set_path st idx p0 u r = Except.ok (st2, np)) (hp : PInv st) : PInv st2 := by
  rcases set_path_commit_cases h with rfl | ⟨i0, tag_ref, p3, newKey, rfl,
    heq, ⟨p2, can, hp3, hp2low⟩, hnk, hguard, rfl⟩
  · exact hp
  have href : st.index_map[maskId i0]? = some tag_ref := by
    simpa [get_index_ref, maskId_maskId] using heq
  have hlt : maskId i0 < st.index_map.length := by
    by_contra hge
    rw [List.getElem?_eq_none (by omega)] at href
    exact Option.noConfusion href
  have hp3low : LowerFixed p3 := by
    rw [hp3]
    exact resolvePathName_lowerFixed _ _ _ _ _ _ hp2low
  have holdKey : lowerS tag_ref.path ++ ("." ++ lowerS tag_ref.class1) = fullKey tag_ref :=
    (fullKey_eq tag_ref).symm
  have hnewRef : fullKey { tag_ref with path := p3 } = newKey := by
    rw [fullKey_eq, hnk]
    dsimp only
    rw [lowerS_eq_self hp3low]
  have hBi : (fullKey tag_ref, maskId i0) ∈ st.path_map := hp.2.1 _ _ href
  -- the popped map
  have hmem2 : ∀ p : String × ℕ, p ∈ dPop st.path_map (fullKey tag_ref) ↔
      p ∈ st.path_map ∧ p.1 ≠ fullKey tag_ref := fun p => mem_dPop hp.2.2
  have hnd2 : (dKeys (dPop st.path_map (fullKey tag_ref))).Nodup :=
    dKeys_dPop_nodup _ hp.2.2
  -- the inserted key is fresh in the popped map
  have hfresh : newKey ∉ dKeys (dPop st.path_map (fullKey tag_ref)) := by
    rcases hguard with hg | hg
    · intro hmem
      obtain ⟨⟨k2, v2⟩, hpm, hk2⟩ := List.mem_map.mp hmem
      have := (hmem2 _).mp hpm
      have hkeq : k2 = newKey := by simpa using hk2
      subst hkeq
      rw [dGet_eq_none_iff] at hg
      exact hg (List.mem_map.mpr ⟨(k2, v2), this.1, rfl⟩)
    · have hnkold : newKey = fullKey tag_ref := by
        have hmem3 := dGet_mem hg
        exact pinv_entry_unique hp hmem3 hBi
      rw [hnkold]
      intro hmem
      obtain ⟨⟨k2, v2⟩, hpm, hk2⟩ := List.mem_map.mp hmem
      have := (hmem2 _).mp hpm
      exact this.2 (by simpa using hk2)
  have hpm2 : dInsert (dPop st.path_map (fullKey tag_ref)) newKey (maskId i0) =
      dPop st.path_map (fullKey tag_ref) ++ [(newKey, maskId i0)] :=
    dInsert_eq_append _ hfresh
  rw [holdKey]
  refine ⟨?_, ?_, ?_⟩
  · intro p hpmem
    rw [hpm2] at hpmem
    simp only [List.length_set]
    rcases List.mem_append.mp hpmem with h1 | h1
    · have h2 := (hmem2 _).mp h1
      obtain ⟨hvlt, r0, hr0, hkey⟩ := hp.1 _ h2.1
      refine ⟨hvlt, r0, ?_, hkey⟩
      rw [List.getElem?_set_ne]
      · exact hr0
      · intro hvv
        rw [← hvv] at hr0
        rw [href] at hr0
        obtain rfl := Option.some.inj hr0
        exact h2.2 (by rw [← hkey])
    · simp only [List.mem_singleton] at h1
      subst h1
      refine ⟨hlt, { tag_ref with path := p3 }, ?_, hnewRef⟩
      rw [List.getElem?_set_self', href]
      rfl
  · intro j rj hrj
    rw [hpm2]
    by_cases hij : maskId i0 = j
    · subst hij
      rw [List.getElem?_set_self', href] at hrj
      have : rj = { tag_ref with path := p3 } := by
        simpa using hrj.symm
      subst this
      rw [hnewRef]
      exact List.mem_append.mpr (Or.inr (List.mem_singleton.mpr rfl))
    · rw [List.getElem?_set_ne hij] at hrj
      have hmemj := hp.2.1 _ _ hrj
      have hkeyne : fullKey rj ≠ fullKey tag_ref := by
        intro hkk
        rw [hkk] at hmemj
        exact hij (pinv_value_unique hp hBi hmemj)
      exact List.mem_append.mpr (Or.inl ((hmem2 _).mpr ⟨hmemj, hkeyne⟩))
  · rw [hpm2]
    simp only [dKeys, List.map_append]
    rw [List.nodup_append]
    refine ⟨hnd2, List.nodup_singleton _, ?_⟩
    intro k hk hk2
    simp only [List.map_cons, List.map_nil, List.mem_singleton] at hk2
    subst hk2
    exact hfresh hk

theorem set_priority_pinv {st : HState} (idx : Option ℕ) (p : Prio)
    (h : PInv st) : PInv (set_priority st idx p) := by
  unfold set_priority
  cases idx with
  | none => exact h
  | some i =>
    dsimp only
    split
    · exact h
    · exact h

theorem applyOp_pinv {st : HState} (h : PInv st) (op : PAOp) : PInv (applyOp st op) := by
  cases op with
  | setPath i p u r =>
    dsimp only [applyOp]
    split
    · next x heq => exact set_path_pinv heq h
    · exact h
  | setPathByPriority i p pr ovr =>
    dsimp only [applyOp]
    split
    · next x heq =>
      unfold set_path_by_priority at heq
      split at heq
      · obtain rfl : st = x.2 := congrArg Prod.snd (Except.ok.inj heq)
        exact h
      · dsimp only at heq
        split at heq
        · obtain rfl : st = x.2 := congrArg Prod.snd (Except.ok.inj heq)
          exact h
        · split at heq
          · exact absurd heq (by simp)
          · next st1 np heq2 =>
            have hx : x.2 = set_priority st1 i (pr.getD st.def_priority) :=
              (congrArg Prod.snd (Except.ok.inj heq)).symm
            rw [hx]
            exact set_priority_pinv _ _ (set_path_pinv heq2 h)
    · exact h

/-- With pairwise-distinct initial keys, construction satisfies the
invariant. -/
theorem initState_pinv (arr : List TagRef) (dp : Prio) (perms : List String)
    (hd : KeysDistinct arr) : PInv (initState arr dp perms) := by
  have hproj := initStep_foldl_proj arr.enum
    { index_map := arr, path_map := [], priorities := [], priority_mins := [],
      overwritables := [], def_priority := dp, root_dir_pfx := "",
      perm_suffixed := perms }
  have hmapkeys : arr.enum.map (fun p => fullKey p.2) = arr.map fullKey := by
    rw [show (fun p : ℕ × TagRef => fullKey p.2) = fullKey ∘ Prod.snd from rfl]
    rw [← List.map_map, List.enum_map_snd]
  have hpm : (initState arr dp perms).path_map =
      arr.enum.map (fun p => (fullKey p.2, p.1)) := by
    unfold initState
    rw [initStep_foldl_path_map]
    have := foldl_dInsert_fresh (fun p : ℕ × TagRef => fullKey p.2) Prod.fst
      arr.enum [] (by simp [dKeys]) (by rw [hmapkeys]; exact hd)
    simpa using this
  have him : (initState arr dp perms).index_map = arr := initState_index_map arr dp perms
  refine ⟨?_, ?_, ?_⟩
  · intro p hp
    rw [hpm] at hp
    obtain ⟨⟨j, r⟩, hjr, hpr⟩ := List.mem_map.mp hp
    have hj : arr[j]? = some r := List.mem_enum_iff_getElem?.mp hjr
    have hlt : j < arr.length := by
      by_contra hge
      rw [List.getElem?_eq_none (by omega)] at hj
      exact Option.noConfusion hj
    rw [him]
    subst hpr
    exact ⟨hlt, r, hj, rfl⟩
  · intro j r hr
    rw [him] at hr
    rw [hpm]
    exact List.mem_map.mpr ⟨(j, r), List.mem_enum_iff_getElem?.mpr hr, rfl⟩
  · rw [hpm]
    have hdk : dKeys (arr.enum.map (fun p => (fullKey p.2, p.1))) =
        arr.enum.map (fun p => fullKey p.2) := by
      simp [dKeys, List.map_map]
    rw [hdk, hmapkeys]
    exact hd

theorem reachable_pinv {arr : List TagRef} {dp : Prio} {perms : List String}
    {st : HState} (hd : KeysDistinct arr) (hr : Reachable arr dp perms st) :
    PInv st := by
  obtain ⟨ops, rfl⟩ := hr
  have : ∀ (ops : List PAOp) (st0 : HState), PInv st0 → PInv (runOps st0 ops) := by
    intro ops
    induction ops with
    | nil => exact fun _ h => h
    | cons op rest ih => exact fun st0 h => ih (applyOp st0 op) (applyOp_pinv h op)
  exact this ops _ (initState_pinv arr dp perms hd)

/-- C1 fails as stated: initial construction from a tag index whose entries
repeat a path (two identities both named `a` in class `c` — the normal state
of a protected archive) is itself a reachable state in which two distinct
identities carry the same normalized full path. -/
theorem c1_counterexample :
    Reachable [⟨"a", "c", false⟩, ⟨"a", "c", false⟩] (Prio.fin 0) []
        (initState [⟨"a", "c", false⟩, ⟨"a", "c", false⟩] (Prio.fin 0) []) ∧
      (0 : ℕ) ≠ 1 ∧
      ∃ r0 r1 : TagRef,
        (initState [⟨"a", "c", false⟩, ⟨"a", "c", false⟩] (Prio.fin 0) []).index_map[0]? = some r0 ∧
        (initState [⟨"a", "c", false⟩, ⟨"a", "c", false⟩] (Prio.fin 0) []).index_map[1]? = some r1 ∧
        fullKey r0 = fullKey r1 :=
  ⟨⟨[], rfl⟩, by omega,
    ⟨⟨"a", "c", false⟩, ⟨"a", "c", false⟩, by decide, by decide, rfl⟩⟩

/-- C1 as amended: provided the initial tag index carries pairwise-distinct
normalized full paths, then in every state of the path authority reachable
by initial construction followed by any sequence of `set_path` /
`set_path_by_priority` calls, no two distinct identities store the same
normalized full path. -/
theorem c1_path_uniqueness (arr : List TagRef) (dp : Prio) (perms : List String)
    (st : HState) (hd : KeysDistinct arr) (hr : Reachable arr dp perms st) :
    ∀ (i j : ℕ) (ri rj : TagRef), st.index_map[i]? = some ri →
      st.index_map[j]? = some rj → i ≠ j → fullKey ri ≠ fullKey rj := by
  intro i j ri rj hi hj hij hkeys
  have hp := reachable_pinv hd hr
  have hmi := hp.2.1 _ _ hi
  have hmj := hp.2.1 _ _ hj
  rw [hkeys] at hmi
  exact hij (pinv_value_unique hp hmi hmj)

/-- Witness for the amended C1: two distinctly named tags, one
`set_path_by_priority` call later the two stored full paths still differ. -/
theorem c1_path_uniqueness_witness :
    KeysDistinct [⟨"x\\a", "weap", false⟩, ⟨"x\\b", "bitm", false⟩] ∧
    Reachable [⟨"x\\a", "weap", false⟩, ⟨"x\\b", "bitm", false⟩] (Prio.fin 0) []
      (runOps (initState [⟨"x\\a", "weap", false⟩, ⟨"x\\b", "bitm", false⟩] (Prio.fin 0) [])
        [PAOp.setPathByPriority (some 0) "x\\b" (some (Prio.fin 5)) false]) ∧
    ∀ (ri rj : TagRef),
      (runOps (initState [⟨"x\\a", "weap", false⟩, ⟨"x\\b", "bitm", false⟩] (Prio.fin 0) [])
        [PAOp.setPathByPriority (some 0) "x\\b" (some (Prio.fin 5)) false]).index_map[0]? = some ri →
      (runOps (initState [⟨"x\\a", "weap", false⟩, ⟨"x\\b", "bitm", false⟩] (Prio.fin 0) [])
        [PAOp.setPathByPriority (some 0) "x\\b" (some (Prio.fin 5)) false]).index_map[1]? = some rj →
      (0 : ℕ) ≠ 1 → fullKey ri ≠ fullKey rj := by
  refine ⟨by unfold KeysDistinct; decide, ⟨[PAOp.setPathByPriority (some 0) "x\\b" (some (Prio.fin 5)) false], rfl⟩, ?_⟩
  intro ri rj hi hj hne
  exact c1_path_uniqueness _ _ _ _ (by unfold KeysDistinct; decide)
    ⟨[PAOp.setPathByPriority (some 0) "x\\b" (some (Prio.fin 5)) false], rfl⟩ 0 1 ri rj hi hj hne

/-! Cycle termination (C6).  The fuel of the embedded `walk` is an artifact;
the Python recursion is bounded because each level inserts a fresh valid
masked id into the shared seen set before recursing.  `walkBound` is that
bound: one more than the number of ids below the (invariant) tag-count not
yet seen.  `walk_fuel_congr` shows any fuel at or above it gives one and the
same value — the embedding's form of termination — and the concrete A→B→A
cycle is then evaluated at the bound. -/

theorem set_priority_min_index (st : HState) (idx : Option ℕ) (p : Prio) :
    (set_priority_min st idx p).index_map = st.index_map := by
  unfold set_priority_min
  cases idx with
  | none => rfl
  | some i =>
    dsimp only
    split <;> rfl

theorem spbpRun_index_len (st : HState) (idx : Option ℕ) (path : String)
    (prio : Option Prio) (ov : Bool) :
    (spbpRun st idx path prio ov).2.index_map.length = st.index_map.length := by
  unfold spbpRun
  split
  · rename_i x heq
    obtain ⟨res, st2⟩ := x
    exact (spbp_state heq).2.2.2.1
  · rfl

/-- A recursion callback never changes the number of tag entries. -/
def PreservesLen
    (w : HState → List ℕ → Option ℕ → String → String → String → WalkOpts → Prio × HState) :
    Prop :=
  ∀ st seen tid root sub nm kw,
    (w st seen tid root sub nm kw).2.index_map.length = st.index_map.length

/-- Every policy of the registry preserves the tag count whenever the
callback handed to it does. -/
def RegPreservesLen (reg : PolicyReg) : Prop :=
  ∀ c rf, reg c = some rf → ∀ w, PreservesLen w →
    ∀ st seen tid root sub nm kw,
      (rf w st seen tid root sub nm kw).2.index_map.length = st.index_map.length

/-- Every policy of the registry gives equal results for two callbacks that
agree on the seen set it hands down, at every state of the invariant tag
count. -/
def RegCongr (reg : PolicyReg) : Prop :=
  ∀ c rf, reg c = some rf → ∀ w1 w2, PreservesLen w1 →
    ∀ (st : HState) (seen : List ℕ),
      (∀ st2, st2.index_map.length = st.index_map.length →
        ∀ tid2 r2 s2 n2 kw2,
          w1 st2 seen tid2 r2 s2 n2 kw2 = w2 st2 seen tid2 r2 s2 n2 kw2) →
      ∀ tid root sub nm kw,
        rf w1 st seen tid root sub nm kw = rf w2 st seen tid root sub nm kw

theorem foldl_acc_len {β : Type} (F : Prio × HState → β → Prio × HState)
    (hF : ∀ a b, (F a b).2.index_map.length = a.2.index_map.length) :
    ∀ (l : List β) (a : Prio × HState),
    (l.foldl F a).2.index_map.length = a.2.index_map.length := by
  intro l
  induction l with
  | nil => intro a; rfl
  | cons b t ih =>
    intro a
    rw [List.foldl_cons, ih, hF]

theorem foldl_acc_congr {β : Type} (P : Prio × HState → Prop)
    (F G : Prio × HState → β → Prio × HState)
    (hFG : ∀ a b, P a → F a b = G a b)
    (hP : ∀ a b, P a → P (F a b)) :
    ∀ (l : List β) (a : Prio × HState), P a → l.foldl F a = l.foldl G a := by
  intro l
  induction l with
  | nil => intro a _; rfl
  | cons b t ih =>
    intro a ha
    simp only [List.foldl_cons]
    rw [← hFG a b ha]
    exact ih (F a b) (hP a b ha)

theorem rename_tagc_len (gmeta : ℕ → Option (List (Option ℕ)))
    (w : HState → List ℕ → Option ℕ → String → String → String → WalkOpts → Prio × HState)
    (hw : PreservesLen w)
    (st : HState) (seen : List ℕ) (tag_id : ℕ) (root_dir sub_dir name : String)
    (kw : WalkOpts) :
    (rename_tagc gmeta w st seen tag_id root_dir sub_dir name kw).2.index_map.length
      = st.index_map.length := by
  unfold rename_tagc
  dsimp only
  cases hg : gmeta tag_id with
  | none => rfl
  | some childIds =>
    dsimp only
    split
    · exact spbpRun_index_len st (some tag_id) _ (some LOW_PRIORITY) kw.override
    · rename_i sub2 heq
      refine Eq.trans (foldl_acc_len _ ?_ childIds _) ?_
      · intro a b
        exact hw a.2 seen b root_dir _ "" _
      · exact spbpRun_index_len st (some tag_id) _ (some LOW_PRIORITY) kw.override

theorem rename_tagc_congr (gmeta : ℕ → Option (List (Option ℕ)))
    (w1 w2 : HState → List ℕ → Option ℕ → String → String → String → WalkOpts → Prio × HState)
    (hw1 : PreservesLen w1)
    (st : HState) (seen : List ℕ)
    (hw : ∀ st2, st2.index_map.length = st.index_map.length →
      ∀ tid2 r2 s2 n2 kw2,
        w1 st2 seen tid2 r2 s2 n2 kw2 = w2 st2 seen tid2 r2 s2 n2 kw2)
    (tag_id : ℕ) (root_dir sub_dir name : String) (kw : WalkOpts) :
    rename_tagc gmeta w1 st seen tag_id root_dir sub_dir name kw =
      rename_tagc gmeta w2 st seen tag_id root_dir sub_dir name kw := by
  unfold rename_tagc
  dsimp only
  cases hg : gmeta tag_id with
  | none => rfl
  | some childIds =>
    dsimp only
    split
    · rfl
    · rename_i sub2 heq
      refine foldl_acc_congr
        (fun a => a.2.index_map.length = st.index_map.length) _ _ ?_ ?_ childIds _ ?_
      · intro a b ha
        dsimp only
        rw [hw a.2 ha]
      · intro a b ha
        exact (hw1 a.2 seen b root_dir _ "" _).trans ha
      · exact spbpRun_index_len st (some tag_id) _ (some LOW_PRIORITY) kw.override

theorem walk_index_len (reg : PolicyReg) (hreg : RegPreservesLen reg) :
    ∀ f : ℕ, PreservesLen (walk reg f) := by
  intro f
  induction f with
  | zero => intro st seen tagId root sub nm kw; rfl
  | succ f ih =>
    intro st seen tagId root sub nm kw
    cases tagId with
    | none => rfl
    | some tid =>
      unfold walk
      dsimp only
      split
      · rfl
      · split
        · rfl
        · split
          · rfl
          · unfold walkProceed
            cases hr : reg (className st (maskId tid)) with
            | none =>
              dsimp only
              rw [set_priority_min_index]
              exact spbpRun_index_len st (some tid) (root ++ sub ++ nm)
                kw.priority kw.override
            | some rf =>
              dsimp only
              rw [set_priority_min_index]
              exact hreg _ rf hr (walk reg f) ih st (maskId tid :: seen) tid
                root sub nm { kw with depth := kw.depth.decr }

/-- One more than the number of ids below `n` (the invariant tag count) not
yet in the seen set: a bound on the remaining recursion depth of `walk`. -/
def walkBound (n : ℕ) (seen : List ℕ) : ℕ :=
  (n + 1) - ((seen.filter (fun x => x < n)).dedup).length

theorem dedup_filter_len_le (n : ℕ) (seen : List ℕ) :
    ((seen.filter (fun x => x < n)).dedup).length ≤ n := by
  have hnd := List.nodup_dedup (seen.filter (fun x => decide (x < n)))
  rw [← List.toFinset_card_of_nodup hnd]
  have hsub : ((seen.filter (fun x => x < n)).dedup).toFinset ⊆ Finset.range n := by
    intro x hx
    rw [List.mem_toFinset, List.mem_dedup] at hx
    rw [Finset.mem_range]
    exact of_decide_eq_true (List.mem_filter.mp hx).2
  calc ((seen.filter (fun x => x < n)).dedup).toFinset.card
      ≤ (Finset.range n).card := Finset.card_le_card hsub
    _ = n := Finset.card_range n

theorem walkBound_pos (n : ℕ) (seen : List ℕ) : 1 ≤ walkBound n seen := by
  unfold walkBound
  have := dedup_filter_len_le n seen
  omega

theorem walkBound_cons (n : ℕ) (seen : List ℕ) (tix : ℕ)
    (hmem : tix ∉ seen) (hlt : tix < n) :
    walkBound n (tix :: seen) + 1 = walkBound n seen := by
  unfold walkBound
  have hf : (tix :: seen).filter (fun x => x < n) =
      tix :: seen.filter (fun x => x < n) := by
    simp [List.filter_cons, hlt]
  rw [hf]
  have hnm : tix ∉ seen.filter (fun x => x < n) :=
    fun hx => hmem (List.mem_of_mem_filter hx)
  rw [List.dedup_cons_of_not_mem hnm]
  have := dedup_filter_len_le n seen
  simp only [List.length_cons]
  omega

theorem walkProceed_congr (reg : PolicyReg)
    (w1 w2 : HState → List ℕ → Option ℕ → String → String → String → WalkOpts → Prio × HState)
    (st : HState) (seen : List ℕ) (tid tix : ℕ) (root sub nm : String)
    (kw : WalkOpts)
    (hcase : ∀ rf, reg (className st tix) = some rf →
      rf w1 st seen tid root sub nm kw = rf w2 st seen tid root sub nm kw) :
    walkProceed reg w1 st seen tid tix root sub nm kw =
      walkProceed reg w2 st seen tid tix root sub nm kw := by
  unfold walkProceed
  cases hreg : reg (className st tix) with
  | none => rfl
  | some rf =>
    dsimp only
    rw [hcase rf hreg]

theorem walk_fuel_congr (reg : PolicyReg) (hlen : RegPreservesLen reg)
    (hcg : RegCongr reg) :
    ∀ (f g : ℕ) (st : HState) (seen : List ℕ) (tagId : Option ℕ)
      (root sub nm : String) (kw : WalkOpts),
    walkBound st.index_map.length seen ≤ f →
    walkBound st.index_map.length seen ≤ g →
    walk reg f st seen tagId root sub nm kw =
      walk reg g st seen tagId root sub nm kw := by
  intro f
  induction f using Nat.strong_induction_on with
  | _ f ih =>
    intro g st seen tagId root sub nm kw hf hg
    have hb1 := walkBound_pos st.index_map.length seen
    obtain ⟨f', rfl⟩ : ∃ k, f = k + 1 := ⟨f - 1, by omega⟩
    obtain ⟨g', rfl⟩ : ∃ k, g = k + 1 := ⟨g - 1, by omega⟩
    cases tagId with
    | none => rfl
    | some tid =>
      by_cases h1 : st.index_map.length ≤ maskId tid
      · unfold walk
        dsimp only
        rw [if_pos h1, if_pos h1]
      · by_cases h2 : maskId tid ∈ seen ∨ Prio.blt kw.depth (Prio.fin 0)
        · unfold walk
          dsimp only
          rw [if_pos h2, if_pos h2]
        · have htix : maskId tid ∉ seen := fun hm => h2 (Or.inl hm)
          have hlt : maskId tid < st.index_map.length := Nat.lt_of_not_le h1
          have hb : walkBound st.index_map.length (maskId tid :: seen) + 1 =
              walkBound st.index_map.length seen :=
            walkBound_cons st.index_map.length seen (maskId tid) htix hlt
          have hW : walkProceed reg (walk reg f') st (maskId tid :: seen) tid
                (maskId tid) root sub nm { kw with depth := kw.depth.decr } =
              walkProceed reg (walk reg g') st (maskId tid :: seen) tid
                (maskId tid) root sub nm { kw with depth := kw.depth.decr } :=
            walkProceed_congr reg (walk reg f') (walk reg g') st
              (maskId tid :: seen) tid (maskId tid) root sub nm
              { kw with depth := kw.depth.decr }
              (fun rf hr =>
                hcg _ rf hr (walk reg f') (walk reg g')
                  (walk_index_len reg hlen f') st (maskId tid :: seen)
                  (fun st2 hst2 tid2 r2 s2 n2 kw2 =>
                    ih f' (Nat.lt_succ_self f') g' st2 (maskId tid :: seen) tid2
                      r2 s2 n2 kw2 (by rw [hst2]; omega) (by rw [hst2]; omega))
                  tid root sub nm { kw with depth := kw.depth.decr })
          unfold walk
          dsimp only
          rw [hW]

/-- The two mutually referencing tag collections of the C6 scenario. -/
def c6Arr : List TagRef :=
  [⟨"old_a", "tag_collection", false⟩, ⟨"old_b", "tag_collection", false⟩]

/-- The C6 initial state. -/
def c6St : HState := initState c6Arr (Prio.fin 0) []

/-- The dependency graph of the scenario's external map (the `halo_map` the
walker is handed is reclaimer input data, outside src/): tag collection 0
references tag 1 and tag 1 references tag 0 — the A→B→A cycle. -/
def c6Meta : ℕ → Option (List (Option ℕ)) := fun i =>
  if i = 0 then some [some 1]
  else if i = 1 then some [some 0]
  else none

/-- `recursive_rename_functions` (functions.py line 3089) restricted to the
single entry the C6 runs ever look up: `tag_collection = rename_tagc`.
Both scenario tags are tag collections, so no other class name reaches the
registry in the verified runs; the remaining entries (policies this
development does not embed) are omitted, so looking any of them up returns
`none` — a case the C6 theorems never exercise. -/
def c6Reg : PolicyReg := fun c =>
  if c = "tag_collection" then some (rename_tagc c6Meta) else none

/-- The walker options of the C6 scenario: no priority gating, unlimited
depth. -/
def c6Kw : WalkOpts := ⟨false, false, false, false, none, Prio.posInf⟩

theorem c6Reg_len : RegPreservesLen c6Reg := by
  intro c rf hr w hw st seen tid root sub nm kw
  unfold c6Reg at hr
  split at hr
  · rw [← Option.some.inj hr]
    exact rename_tagc_len c6Meta w hw st seen tid root sub nm kw
  · exact Option.noConfusion hr

theorem c6Reg_congr : RegCongr c6Reg := by
  intro c rf hr w1 w2 hw1 st seen hw tid root sub nm kw
  unfold c6Reg at hr
  split at hr
  · rw [← Option.some.inj hr]
    exact rename_tagc_congr c6Meta w1 w2 hw1 st seen hw tid root sub nm kw
  · exact Option.noConfusion hr

/-- C6: on the mutual dependency A→B→A through the real `tag_collection`
policy `rename_tagc`, `walk(A, …)` terminates — in the fuel embedding,
every fuel at or above the seen-set bound `walkBound` (here 3: two tags,
nothing seen) yields one and the same value, because the shared visited
set, populated before each recursion, stops the cycle on the revisit of
A — and in that value both A and B carry their newly assigned paths. -/
theorem c6_cycle_termination (f g : ℕ) (hf : 3 ≤ f) (hg : 3 ≤ g) :
    walk c6Reg f c6St [] (some 0) "" "dir\\" "a" c6Kw =
      walk c6Reg g c6St [] (some 0) "" "dir\\" "a" c6Kw ∧
    (walk c6Reg f c6St [] (some 0) "" "dir\\" "a" c6Kw).2.index_map.map
        (fun r => r.path) = ["dir\\a", "dir\\a\\protected_1"] := by
  have hb : walkBound c6St.index_map.length [] = 3 := by decide
  constructor
  · exact walk_fuel_congr c6Reg c6Reg_len c6Reg_congr f g c6St [] (some 0)
      "" "dir\\" "a" c6Kw (by rw [hb]; exact hf) (by rw [hb]; exact hg)
  · rw [walk_fuel_congr c6Reg c6Reg_len c6Reg_congr f 3 c6St [] (some 0)
      "" "dir\\" "a" c6Kw (by rw [hb]; exact hf) (by rw [hb])]
    decide

/-- Witness for C6 at fuels 3 and 4. -/
theorem c6_cycle_termination_witness :
    walk c6Reg 3 c6St [] (some 0) "" "dir\\" "a" c6Kw =
      walk c6Reg 4 c6St [] (some 0) "" "dir\\" "a" c6Kw ∧
    (walk c6Reg 3 c6St [] (some 0) "" "dir\\" "a" c6Kw).2.index_map.map
        (fun r => r.path) = ["dir\\a", "dir\\a\\protected_1"] :=
  c6_cycle_termination 3 4 (by decide) (by decide)

/-! The nesting-depth check of `shorten_paths` (C8).  The build loop is the
only producer of `SErr.tooNested` and of the `nestedErrStr` printout; the
lemmas below classify the errors of every later phase to show the check
never fires when no key trips the bound, and evaluate the loop on a
tripping head entry. -/

theorem buildInsert_ne_tooNested :
    ∀ (pieces : List String) (paths : List (String × TEntry)) (v : Option ℕ)
      (e : SErr), buildInsert paths pieces v = Except.error e →
      e ≠ SErr.tooNested := by
  intro pieces
  induction pieces with
  | nil =>
    intro paths v e h
    unfold buildInsert at h
    rw [← Except.error.inj h]; decide
  | cons d rest ih =>
    intro paths v e h
    cases rest with
    | nil =>
      unfold buildInsert at h
      exact Except.noConfusion h
    | cons r2 t =>
      unfold buildInsert at h
      split at h
      · split at h
        · rename_i e2 heq
          rw [← Except.error.inj h]
          exact ih _ _ _ heq
        · exact Except.noConfusion h
      · rw [← Except.error.inj h]; decide
      · split at h
        · rename_i e2 heq
          rw [← Except.error.inj h]
          exact ih _ _ _ heq
        · exact Except.noConfusion h

theorem shortenList_ne_tooNested :
    ∀ (f : ℕ) (parent : String) (es tgt : List (String × TEntry))
      (rep : List (String × List (Option ℕ))) (e : SErr),
    shortenList f parent es tgt rep = Except.error e → e ≠ SErr.tooNested := by
  intro f
  induction f with
  | zero =>
    intro parent es tgt rep e h
    unfold shortenList at h
    rw [← Except.error.inj h]; decide
  | succ f ih =>
    intro parent es tgt rep e h
    cases es with
    | nil => unfold shortenList at h; exact Except.noConfusion h
    | cons hd rest =>
      obtain ⟨name, entry⟩ := hd
      cases entry with
      | leaf v =>
        unfold shortenList at h
        dsimp only at h
        split at h
        · split at h
          · exact ih _ _ _ _ _ h
          · exact ih _ _ _ _ _ h
        · split at h
          · exact ih _ _ _ _ _ h
          · exact ih _ _ _ _ _ h
      | dir sub =>
        cases sub with
        | nil => unfold shortenList at h; exact ih _ _ _ _ _ h
        | cons s1 s2 =>
          unfold shortenList at h
          dsimp only at h
          split at h
          · split at h
            · rename_i e2 heq
              rw [← Except.error.inj h]
              exact ih _ _ _ _ _ heq
            · rename_i x heq
              split at h
              · rw [← Except.error.inj h]; decide
              · exact ih _ _ _ _ _ h
          · split at h
            · rename_i e2 heq
              rw [← Except.error.inj h]
              exact ih _ _ _ _ _ heq
            · rename_i x heq
              split at h
              · rw [← Except.error.inj h]; decide
              · exact ih _ _ _ _ _ h

theorem applyList_ne_tooNested :
    ∀ (f : ℕ) (pieces : List String) (es : List (String × TEntry))
      (imap : List SRef) (dp : Bool) (e : SErr),
    applyList f pieces es imap dp = Except.error e → e ≠ SErr.tooNested := by
  intro f
  induction f with
  | zero =>
    intro pieces es imap dp e h
    unfold applyList at h
    rw [← Except.error.inj h]; decide
  | succ f ih =>
    intro pieces es imap dp e h
    cases es with
    | nil => unfold applyList at h; exact Except.noConfusion h
    | cons hd rest =>
      obtain ⟨name, entry⟩ := hd
      cases entry with
      | dir sub =>
        cases sub with
        | nil => unfold applyList at h; exact ih _ _ _ _ _ h
        | cons s1 s2 =>
          unfold applyList at h
          split at h
          · rename_i e2 heq
            rw [← Except.error.inj h]
            exact ih _ _ _ _ _ heq
          · exact ih _ _ _ _ _ h
      | leaf v =>
        unfold applyList at h
        split at h
        · exact ih _ _ _ _ _ h
        · rename_i i2
          split at h
          · rw [← Except.error.inj h]; decide
          · rename_i ref heqR
            split at h
            · exact ih _ _ _ _ _ h
            · split at h
              · rw [← Except.error.inj h]; decide
              · split at h
                · rw [← Except.error.inj h]; decide
                · exact ih _ _ _ _ _ h

theorem remakeLoop_ne_tooNested (max_len : ℕ) (dp : Bool) :
    ∀ (refs : List SRef) (i : ℕ) (pm : List (String × ℕ)) (log : List String)
      (racc : List TagRef) (e : SErr),
    remakeLoop max_len dp i refs pm log racc = Except.error e →
    e ≠ SErr.tooNested := by
  intro refs
  induction refs with
  | nil =>
    intro i pm log racc e h
    unfold remakeLoop at h
    exact Except.noConfusion h
  | cons ref rest ih =>
    intro i pm log racc e h
    unfold remakeLoop at h
    split at h
    · rw [← Except.error.inj h]; decide
    · dsimp only at h
      exact ih _ _ _ _ _ h

theorem remakeLoop_log_mem (max_len : ℕ) (dp : Bool) :
    ∀ (refs : List SRef) (i : ℕ) (pm : List (String × ℕ)) (log : List String)
      (racc : List TagRef) (y : List String × List (String × ℕ) × List TagRef),
    remakeLoop max_len dp i refs pm log racc = Except.ok y →
    ∀ x ∈ y.1, x ∈ log ∨
      ∃ s, x = "WARNING: " ++ s ++ " is over the length limit." := by
  intro refs
  induction refs with
  | nil =>
    intro i pm log racc y hy x hx
    unfold remakeLoop at hy
    have hyv : ((log, pm, racc) : List String × List (String × ℕ) × List TagRef) = y :=
      Except.ok.inj hy
    rw [← hyv] at hx
    exact Or.inl hx
  | cons ref rest ih =>
    intro i pm log racc y hy x hx
    unfold remakeLoop at hy
    split at hy
    · exact Except.noConfusion hy
    · rename_i s heqS
      dsimp only at hy
      rcases ih _ _ _ _ _ hy x hx with hin | hex
      · by_cases hc : dp = true ∧ s.length > max_len
        · rw [if_pos hc] at hin
          rcases List.mem_append.mp hin with h1 | h1
          · exact Or.inl h1
          · exact Or.inr ⟨s, by simpa using h1⟩
        · rw [if_neg hc] at hin
          exact Or.inl hin
      · exact Or.inr hex

theorem warning_ne_nested (s : String) (m : ℕ) :
    "WARNING: " ++ s ++ " is over the length limit." ≠ nestedErrStr m := by
  intro h
  have h1 : ("WARNING: " ++ s ++ " is over the length limit.").data.head? =
      some 'W' := rfl
  have h2 : (nestedErrStr m).data.head? = some 'T' := rfl
  rw [h] at h1
  rw [h1] at h2
  exact absurd (Option.some.inj h2) (by decide)

theorem buildLoop_no_trip (st : HState) (max_len : ℕ) (pe : Bool) :
    ∀ (entries : List (String × ℕ)) (acc : List (String × TEntry))
      (r : Except SErr (Option (List (String × TEntry)))),
    buildLoop st max_len pe entries acc = r →
    (∀ p ∈ entries, ((pwParts (lowerS p.1)).length - 1) * 4 ≤ max_len) →
    r ≠ Except.error SErr.tooNested ∧ r ≠ Except.ok none := by
  intro entries
  induction entries with
  | nil =>
    intro acc r hr _
    unfold buildLoop at hr
    refine ⟨fun hc => ?_, fun hc => ?_⟩
    · rw [← hr] at hc; exact Except.noConfusion hc
    · rw [← hr] at hc; exact Option.noConfusion (Except.ok.inj hc)
  | cons hd rest ih =>
    obtain ⟨key, index⟩ := hd
    intro acc r hr hno
    have hkey : ((pwParts (lowerS key)).length - 1) * 4 ≤ max_len :=
      hno (key, index) (by simp)
    have hrest : ∀ p ∈ rest, ((pwParts (lowerS p.1)).length - 1) * 4 ≤ max_len :=
      fun p hp => hno p (List.mem_cons_of_mem _ hp)
    unfold buildLoop at hr
    dsimp only at hr
    split at hr
    · refine ⟨fun hc => ?_, fun hc => ?_⟩
      · rw [← hr] at hc
        exact absurd (Except.error.inj hc) (by decide)
      · rw [← hr] at hc; exact Except.noConfusion hc
    · rename_i last heqLast
      rw [if_neg (Nat.not_lt.mpr hkey)] at hr
      split at hr
      · rename_i i heqI
        split at hr
        · split at hr
          · rename_i e heqB
            refine ⟨fun hc => ?_, fun hc => ?_⟩
            · rw [← hr] at hc
              exact buildInsert_ne_tooNested _ _ _ _ heqB (Except.error.inj hc)
            · rw [← hr] at hc; exact Except.noConfusion hc
          · exact ih _ _ hr hrest
        · refine ⟨fun hc => ?_, fun hc => ?_⟩
          · rw [← hr] at hc
            exact absurd (Except.error.inj hc) (by decide)
          · rw [← hr] at hc; exact Except.noConfusion hc
      · split at hr
        · rename_i e heqB
          refine ⟨fun hc => ?_, fun hc => ?_⟩
          · rw [← hr] at hc
            exact buildInsert_ne_tooNested _ _ _ _ heqB (Except.error.inj hc)
          · rw [← hr] at hc; exact Except.noConfusion hc
        · exact ih _ _ hr hrest

theorem shorten_paths_ne_tooNested (st : HState) (max_len : ℕ) (dp pe : Bool)
    (hno : ∀ p ∈ st.path_map, ((pwParts (lowerS p.1)).length - 1) * 4 ≤ max_len) :
    shorten_paths st max_len dp pe ≠ Except.error SErr.tooNested := by
  intro hbad
  unfold shorten_paths at hbad
  split at hbad
  · rename_i e heq
    rw [Except.error.inj hbad] at heq
    exact (buildLoop_no_trip st max_len pe st.path_map [] _ heq hno).1 rfl
  · exact Except.noConfusion hbad
  · rename_i paths heq
    dsimp only at hbad
    split at hbad
    · rename_i e heq2
      exact shortenList_ne_tooNested _ _ _ _ _ _ heq2 (Except.error.inj hbad)
    · rename_i x heq2
      split at hbad
      · rename_i e heq3
        exact applyList_ne_tooNested _ _ _ _ _ _ heq3 (Except.error.inj hbad)
      · rename_i srefs2 heq3
        split at hbad
        · rename_i e heq4
          exact remakeLoop_ne_tooNested max_len dp _ _ _ _ _ _ heq4
            (Except.error.inj hbad)
        · exact Except.noConfusion hbad

theorem shorten_paths_ok_log (st : HState) (max_len : ℕ) (dp pe : Bool)
    (hno : ∀ p ∈ st.path_map, ((pwParts (lowerS p.1)).length - 1) * 4 ≤ max_len)
    (log : List String) (st2 : HState)
    (hok : shorten_paths st max_len dp pe = Except.ok (log, st2)) :
    nestedErrStr max_len ∉ log := by
  intro hmem
  unfold shorten_paths at hok
  split at hok
  · exact Except.noConfusion hok
  · rename_i heq
    exact (buildLoop_no_trip st max_len pe st.path_map [] _ heq hno).2 rfl
  · rename_i paths heq
    dsimp only at hok
    split at hok
    · exact Except.noConfusion hok
    · rename_i x heq2
      split at hok
      · exact Except.noConfusion hok
      · rename_i srefs2 heq3
        split at hok
        · exact Except.noConfusion hok
        · rename_i y heq4
          have hlog : log = y.1 := (congrArg Prod.fst (Except.ok.inj hok)).symm
          rcases remakeLoop_log_mem max_len dp srefs2 0 [] [] [] y heq4
              (nestedErrStr max_len) (hlog ▸ hmem) with hin | ⟨s, hs⟩
          · exact List.not_mem_nil _ hin
          · exact warning_ne_nested s max_len hs.symm

theorem buildLoop_trip_head (st : HState) (max_len : ℕ) (pe : Bool)
    (key : String) (i : ℕ) (rest : List (String × ℕ))
    (acc : List (String × TEntry))
    (h : ((pwParts (lowerS key)).length - 1) * 4 > max_len) :
    buildLoop st max_len pe ((key, i) :: rest) acc =
      if pe = false then Except.error SErr.tooNested else Except.ok none := by
  have hne : pwParts (lowerS key) ≠ [] := by
    intro h0
    rw [h0] at h
    simp only [List.length_nil] at h
    omega
  obtain ⟨last, hl⟩ := Option.isSome_iff_exists.mp (List.getLast?_isSome.mpr hne)
  unfold buildLoop
  dsimp only
  rw [hl]
  dsimp only
  rw [if_pos h]

theorem shorten_paths_trip_head (st : HState) (max_len : ℕ) (dp pe : Bool)
    (key : String) (i : ℕ) (rest : List (String × ℕ))
    (hpm : st.path_map = (key, i) :: rest)
    (h : ((pwParts (lowerS key)).length - 1) * 4 > max_len) :
    shorten_paths st max_len dp pe =
      if pe = false then Except.error SErr.tooNested
      else Except.ok ([nestedErrStr max_len], st) := by
  unfold shorten_paths
  rw [hpm, buildLoop_trip_head st max_len pe key i rest [] h]
  cases pe <;> rfl

/-- C8: the nesting-depth check of `shorten_paths` (lines 322-331).  When the
first path-map key's segment count minus one, times the conservative 4
characters per segment, exceeds the budget, the operation fails immediately:
it raises the too-nested error when `print_errors` is off, and when the flag
is on it records the error message and returns with the state untouched.
When no key trips the bound the check never fires: the call never raises the
too-nested error and no successful run's printout contains its message. -/
theorem c8_nesting_check (st : HState) (max_len : ℕ) (dp pe : Bool) :
    ((∀ p ∈ st.path_map, ¬ ((pwParts (lowerS p.1)).length - 1) * 4 > max_len) →
        shorten_paths st max_len dp pe ≠ Except.error SErr.tooNested ∧
        ∀ log st2, shorten_paths st max_len dp pe = Except.ok (log, st2) →
          nestedErrStr max_len ∉ log) ∧
    (∀ key i rest, st.path_map = (key, i) :: rest →
        ((pwParts (lowerS key)).length - 1) * 4 > max_len →
        (pe = false → shorten_paths st max_len dp pe = Except.error SErr.tooNested) ∧
        (pe = true →
          shorten_paths st max_len dp pe = Except.ok ([nestedErrStr max_len], st))) := by
  constructor
  · intro hno
    have hno2 : ∀ p ∈ st.path_map, ((pwParts (lowerS p.1)).length - 1) * 4 ≤ max_len :=
      fun p hp => Nat.not_lt.mp (hno p hp)
    exact ⟨shorten_paths_ne_tooNested st max_len dp pe hno2,
      fun log st2 hok => shorten_paths_ok_log st max_len dp pe hno2 log st2 hok⟩
  · intro key i rest hpm htrip
    constructor
    · intro hpe
      subst hpe
      rw [shorten_paths_trip_head st max_len dp false key i rest hpm htrip]
      rfl
    · intro hpe
      subst hpe
      rw [shorten_paths_trip_head st max_len dp true key i rest hpm htrip]
      rfl

/-! The compaction budget (C7).  The apply loop can only change a tag by
storing a `PureWindowsPath` object in its `path`, and the rebuild faults on
any tag so changed — so a successful run has changed nothing, and any
over-budget path that the apply loop skipped (a pinned tag's, in the
counterexample) survives in the returned state. -/

theorem applyList_frame :
    ∀ (f : ℕ) (pieces : List String) (es : List (String × TEntry))
      (imap : List SRef) (dp : Bool) (imap2 : List SRef),
    applyList f pieces es imap dp = Except.ok imap2 →
    ∀ j : ℕ, imap2[j]? = imap[j]? ∨
      ∃ (r : SRef) (p : List String) (s : String),
        imap2[j]? = some r ∧ r.path = PathVal.pw p s := by
  intro f
  induction f with
  | zero =>
    intro pieces es imap dp imap2 h
    unfold applyList at h
    exact Except.noConfusion h
  | succ f ih =>
    intro pieces es imap dp imap2 h
    cases es with
    | nil =>
      unfold applyList at h
      intro j
      rw [← Except.ok.inj h]
      exact Or.inl rfl
    | cons hd rest =>
      obtain ⟨name, entry⟩ := hd
      cases entry with
      | dir sub =>
        cases sub with
        | nil =>
          unfold applyList at h
          exact ih _ _ _ _ _ h
        | cons s1 s2 =>
          unfold applyList at h
          split at h
          · exact Except.noConfusion h
          · rename_i imap3 heq
            intro j
            rcases ih _ _ _ _ _ h j with hj | hj
            · rcases ih _ _ _ _ _ heq j with hk | hk
              · exact Or.inl (hj.trans hk)
              · obtain ⟨r, p, s, hr, hp⟩ := hk
                exact Or.inr ⟨r, p, s, hj.trans hr, hp⟩
            · exact Or.inr hj
      | leaf v =>
        unfold applyList at h
        split at h
        · exact ih _ _ _ _ _ h
        · rename_i iv
          split at h
          · exact Except.noConfusion h
          · rename_i ref heqR
            split at h
            · exact ih _ _ _ _ _ h
            · split at h
              · exact Except.noConfusion h
              · split at h
                · exact Except.noConfusion h
                · intro j
                  rcases ih _ _ _ _ _ h j with hj | hj
                  · by_cases hij : iv = j
                    · subst hij
                      rw [List.getElem?_set_self'] at hj
                      rw [heqR] at hj
                      exact Or.inr ⟨_, pieces, pwSuffix name, by simpa using hj, rfl⟩
                    · rw [List.getElem?_set_ne hij] at hj
                      exact Or.inl hj
                  · exact Or.inr hj

theorem remakeLoop_ok_str (max_len : ℕ) (dp : Bool) :
    ∀ (refs : List SRef) (i : ℕ) (pm : List (String × ℕ)) (log : List String)
      (racc : List TagRef) (y : List String × List (String × ℕ) × List TagRef),
    remakeLoop max_len dp i refs pm log racc = Except.ok y →
    ∀ r ∈ refs, ∃ s, r.path = PathVal.str s := by
  intro refs
  induction refs with
  | nil =>
    intro i pm log racc y hy r hr
    exact absurd hr (List.not_mem_nil _)
  | cons ref rest ih =>
    intro i pm log racc y hy r hr
    unfold remakeLoop at hy
    split at hy
    · exact Except.noConfusion hy
    · rename_i s heqS
      dsimp only at hy
      rcases List.mem_cons.mp hr with rfl | hr2
      · exact ⟨s, heqS⟩
      · exact ih _ _ _ _ _ hy r hr2

theorem remakeLoop_ok_rebuild (max_len : ℕ) (dp : Bool) :
    ∀ (orig : List TagRef) (refs : List SRef),
    refs = orig.map (fun r => SRef.mk (PathVal.str r.path) r.class1 r.indexed) →
    ∀ (i : ℕ) (pm : List (String × ℕ)) (log : List String) (racc : List TagRef)
      (y : List String × List (String × ℕ) × List TagRef),
    remakeLoop max_len dp i refs pm log racc = Except.ok y →
    y.2.2 = racc ++ orig := by
  intro orig
  induction orig with
  | nil =>
    intro refs href i pm log racc y hy
    subst href
    simp only [List.map_nil] at hy
    unfold remakeLoop at hy
    rw [← Except.ok.inj hy]
    simp
  | cons r orest ih =>
    intro refs href i pm log racc y hy
    subst href
    simp only [List.map_cons] at hy
    unfold remakeLoop at hy
    dsimp only at hy
    have hrest := ih (List.map _ orest) rfl _ _ _ _ _ hy
    rw [hrest]
    simp

/-- C7 as amended: a successful `shorten_paths` run has renamed nothing —
the returned tag list is the input tag list — so any over-budget path it
skipped survives in the returned state, and the honest guarantee is only
fail-or-report, never budget enforcement.  (Every rename the apply loop
performs stores a `PureWindowsPath` object in the tag's `path` field, and
the path-map rebuild then raises `TypeError` on `tag_path + "."`.) -/
theorem c7_compaction_budget (st : HState) (max_len : ℕ) (dp pe : Bool)
    (log : List String) (st2 : HState)
    (hok : shorten_paths st max_len dp pe = Except.ok (log, st2)) :
    st2.index_map = st.index_map := by
  unfold shorten_paths at hok
  split at hok
  · exact Except.noConfusion hok
  · have h2 : st = st2 := congrArg Prod.snd (Except.ok.inj hok)
    rw [← h2]
  · rename_i paths heq
    dsimp only at hok
    split at hok
    · exact Except.noConfusion hok
    · rename_i x heq2
      split at hok
      · exact Except.noConfusion hok
      · rename_i srefs2 heq3
        split at hok
        · exact Except.noConfusion hok
        · rename_i y heq4
          have hst2 : ({ st with index_map := y.2.2, path_map := y.2.1 } : HState) = st2 :=
            congrArg Prod.snd (Except.ok.inj hok)
          have hall := remakeLoop_ok_str max_len dp srefs2 0 [] [] [] y heq4
          have hframe := applyList_frame (trieFuel st) [] x.1 _ dp srefs2 heq3
          have hs : srefs2 =
              st.index_map.map (fun r => SRef.mk (PathVal.str r.path) r.class1 r.indexed) := by
            apply List.ext_getElem?
            intro j
            rcases hframe j with hj | ⟨r, p, s, hj, hp⟩
            · exact hj
            · obtain ⟨s2, hs2⟩ := hall r (List.getElem?_mem hj)
              rw [hp] at hs2
              exact PathVal.noConfusion hs2
          have hre := remakeLoop_ok_rebuild max_len dp st.index_map srefs2 hs
            0 [] [] [] y heq4
          rw [← hst2]
          dsimp only
          rw [hre]
          exact List.nil_append _

/-- A one-tag state whose only path is pinned and over any small budget. -/
def c7CexSt : HState := initState [⟨"abcdefgh", "c", true⟩] (Prio.fin 0) []

/-- C7 counterexample: with the single tag pinned at the 8-character path
`abcdefgh` and a budget of 5, `shorten_paths` returns successfully (the
apply loop skips pinned leaves), yet the returned state still holds the
over-budget path. -/
theorem c7_counterexample :
    shorten_paths c7CexSt 5 false false = Except.ok ([], c7CexSt) ∧
    ∀ r ∈ c7CexSt.index_map, r.path.length > 5 := by decide

/-- Witness for the amended C7 on the pinned one-tag state: the run succeeds
and the theorem instantiates to the unchanged tag list. -/
theorem c7_compaction_budget_witness :
    shorten_paths c7CexSt 5 false false = Except.ok ([], c7CexSt) ∧
    c7CexSt.index_map = c7CexSt.index_map :=
  ⟨by decide, c7_compaction_budget c7CexSt 5 false false [] c7CexSt (by decide)⟩

/-- A one-tag state whose path is shallow enough for any reasonable budget. -/
def c8StA : HState :=
  ⟨[⟨"x\\a", "weap", false⟩], [("x\\a.weap", 0)], [(0, Prio.fin 0)],
    [(0, Prio.fin 0)], [(0, true)], Prio.fin 0, "", []⟩

/-- A one-tag state whose two-segment path already trips a budget of 3. -/
def c8StB : HState :=
  ⟨[⟨"a\\b", "weap", false⟩], [("a\\b.weap", 0)], [(0, Prio.fin 0)],
    [(0, Prio.fin 0)], [(0, true)], Prio.fin 0, "", []⟩

/-- Witness for C8: a shallow state never trips the check at budget 100; a
nested one at budget 3 raises with `print_errors` off and records the
message, leaving the state untouched, with it on. -/
theorem c8_nesting_check_witness :
    shorten_paths c8StA 100 false false ≠ Except.error SErr.tooNested ∧
    shorten_paths c8StB 3 false false = Except.error SErr.tooNested ∧
    shorten_paths c8StB 3 false true = Except.ok ([nestedErrStr 3], c8StB) :=
  ⟨((c8_nesting_check c8StA 100 false false).1 (by decide)).1,
    ((c8_nesting_check c8StB 3 false false).2 "a\\b.weap" 0 [] rfl (by decide)).1 rfl,
    ((c8_nesting_check c8StB 3 false true).2 "a\\b.weap" 0 [] rfl (by decide)).2 rfl⟩

end Refinery
